import Mathlib

/-!
# libbicycle: the constraint-consistent numerical layer

A shallow embedding of `src/bicycle_numerical.cc`.  The class `Bicycle` becomes a
record that is passed to and returned from the member functions that mutate it;
`const` member functions become pure functions of the record.  The generated
model equations (`f_c`, `f_c_dq`, `f_v_du`, ...) are not part of the numerical
layer and are collected in the record `Evaluator`.

Numbers of type `double` are embedded as rationals, so arithmetic is exact and
rounding is not modelled.  The counter `i` and the argument `iter` are `int`s
and are embedded as integers (`i` never exceeds `max iter 1`, so it cannot
overflow).
-/

namespace bicycle

/-! ## Data model -/

/-- Number of generalized coordinates.  The header `bicycle.h` fixes it; the
source shows `n + o = 20` (`Vector dxdt(20)`) with `o = 12`. -/
abbrev n : ℕ := 8

/-- Number of generalized speeds ("3 x 12 * 12 x 1" in `f_v_dq`). -/
abbrev o : ℕ := 12

/-- Number of velocity constraints ("9 by 3 constraint matrix": `o - m = 9`). -/
abbrev m : ℕ := 3

/-- An Eigen `Vector`: a matrix with a single column. -/
abbrev Vector (k : ℕ) := Matrix (Fin k) (Fin 1) ℚ

/-- The member `state_`: the `n` coordinates followed by the `o` speeds. -/
abbrev State := Vector 20

/-- The generated model equations, each a read-only function of `state_`
(and of the parameters, which never change). -/
structure Evaluator where
  /-- Configuration constraint residual. -/
  f_c : State → ℚ
  /-- Gradient of `f_c` with respect to the `n` coordinates. -/
  f_c_dq : State → Vector n
  /-- Velocity constraint coefficient matrix `B`. -/
  f_v_du : State → Matrix (Fin m) (Fin o) ℚ

/-- The data members of `Bicycle` used by the numerical layer:
`dependent_coordinate_` indexes the `n` coordinates, `dependent_speeds_` is a
`std::set<int>` of speed indices, and `P_u_` is a dense `o x o` matrix. -/
structure Bicycle where
  state_ : State
  dependent_coordinate_ : Fin n
  dependent_speeds_ : Finset (Fin o)
  P_u_ : Matrix (Fin o) (Fin o) ℚ

/-! ### The configuration constraint solver -/

/-- Position of coordinate `i` inside `state_`. -/
def qIdx (i : Fin n) : Fin 20 := ⟨i.val, by have := i.isLt; simp only [n] at this; omega⟩

/-- Position of speed `j` inside `state_` (`state_[j + n]`). -/
def uIdx (j : Fin o) : Fin 20 := ⟨j.val + n, by have := j.isLt; simp only [o, n] at this ⊢; omega⟩

/-- The assignment `v[i] = x` on a vector. -/
def setEntry {k : ℕ} (v : Vector k) (i : Fin k) (x : ℚ) : Vector k :=
  fun r c => if r = i then x else v r c

/-- Eigen's `M.block<r, c>(i, j)`: the `r x c` block of `M` whose top left corner
is entry `(i, j)`. -/
def block {R C : ℕ} (M : Matrix (Fin R) (Fin C) ℚ) (r c i j : ℕ) (hr : i + r ≤ R)
    (hc : j + c ≤ C) : Matrix (Fin r) (Fin c) ℚ :=
  fun a b => M ⟨i + a.val, by have := a.isLt; omega⟩ ⟨j + b.val, by have := b.isLt; omega⟩

/-- The threshold `1e-14` of the degenerate check (the constant `df_min` of the
message that the check prints). -/
def df_min : ℚ := 1 / 10 ^ 14

/-- The test `fabs(df[dependent_coordinate_]) < 1e-14` at a state. -/
def degenerate (E : Evaluator) (dep : Fin n) (s : State) : Prop :=
  |E.f_c_dq s dep 0| < df_min

instance (E : Evaluator) (dep : Fin n) (s : State) : Decidable (degenerate E dep s) := by
  unfold degenerate; infer_instance

/-- The Newton step `state_[dependent_coordinate_] -= f/df[dependent_coordinate_]`. -/
def newton_step (E : Evaluator) (dep : Fin n) (s : State) : State :=
  setEntry s (qIdx dep) (s (qIdx dep) 0 - E.f_c s / E.f_c_dq s dep 0)

/-- The `do ... while` loop of `solve_configuration_constraint_and_set_state`,
entered with counter `i` and state `s`; it returns the state, the counter and
the last residual `f`. -/
def newton_loop (E : Evaluator) (dep : Fin n) (ftol : ℚ) (iter : ℤ) (q_d_prev : ℚ)
    (s : State) (i : ℤ) : State × ℤ × ℚ :=
  let f := E.f_c s
  if degenerate E dep s then
    (setEntry s (qIdx dep) q_d_prev, i, f)
  else
    if i + 1 < iter ∧ |f| > ftol then
      newton_loop E dep ftol iter q_d_prev (newton_step E dep s) (i + 1)
    else
      (newton_step E dep s, i + 1, f)
termination_by (iter - i).toNat
decreasing_by omega

/-- `Bicycle::solve_configuration_constraint_and_set_state(ftol, iter)`. -/
def solve_configuration_constraint_and_set_state (E : Evaluator) (b : Bicycle)
    (ftol : ℚ) (iter : ℤ) : Bicycle × ℤ × ℚ :=
  let q_d_prev := b.state_ (qIdx b.dependent_coordinate_) 0
  let r := newton_loop E b.dependent_coordinate_ ftol iter q_d_prev b.state_ 0
  ({ b with state_ := r.1 }, r.2.1, r.2.2)

/-! ### Runs of the Newton loop, described step by step -/

/-- The state after `k` Newton steps from `s`. -/
def newton_iterate (E : Evaluator) (dep : Fin n) (s : State) (k : ℕ) : State :=
  (newton_step E dep)^[k] s

/-- The degenerate check fires after exactly `k` Newton steps of the call on
`s`: the first `k` passes take their step and continue, and the derivative at
the state reached is below `df_min`. -/
def aborts_after (E : Evaluator) (dep : Fin n) (ftol : ℚ) (iter : ℤ) (s : State) (k : ℕ) : Prop :=
  (∀ j, j < k → ¬ degenerate E dep (newton_iterate E dep s j)) ∧
  (∀ j, j < k → ((j : ℤ) + 1 < iter ∧ |E.f_c (newton_iterate E dep s j)| > ftol)) ∧
  degenerate E dep (newton_iterate E dep s k)

/-- The residual `f_k` evaluated before the `k`-th Newton step (`k ≥ 1`). -/
def residual_before (E : Evaluator) (dep : Fin n) (s : State) (k : ℕ) : ℚ :=
  E.f_c (newton_iterate E dep s (k - 1))

/-- The loop condition fails after the `k`-th step: `k ≥ iter` or `|f_k| ≤ ftol`. -/
def stops_at (E : Evaluator) (dep : Fin n) (ftol : ℚ) (iter : ℤ) (s : State) (k : ℕ) : Prop :=
  iter ≤ (k : ℤ) ∨ |residual_before E dep s k| ≤ ftol

/-! ### Example inputs for the configuration solver -/

/-- An evaluator whose constraint depends on the pitch `q[2]` alone: residual
`f (q[2])`, gradient `df (q[2])` in entry 2 and zero elsewhere; no velocity
constraints. -/
def pitchEval (f df : ℚ → ℚ) : Evaluator where
  f_c := fun s => f (s 2 0)
  f_c_dq := fun s => fun r _ => if r = 2 then df (s 2 0) else 0
  f_v_du := fun _ => 0

/-- A state with pitch `x` and every other entry zero. -/
def pitchState (x : ℚ) : State := fun r _ => if r = 2 then x else 0

/-- A bicycle with pitch `x`, every other entry of the state zero, the pitch as
dependent coordinate and the last three speeds dependent. -/
def pitchBicycle (x : ℚ) : Bicycle where
  state_ := pitchState x
  dependent_coordinate_ := 2
  dependent_speeds_ := {9, 10, 11}
  P_u_ := 1

/-! ### Selection of the dependent coordinate and speeds -/

/-- The loop of `std::max_element`: `largest` is the position of the largest
element seen so far, `first` the position examined next, and the last argument
the number of positions still to be examined. -/
def max_element_loop (data : ℕ → ℚ) (largest first : ℕ) : ℕ → ℕ
  | 0 => largest
  | r + 1 =>
    max_element_loop data (if data largest < data first then first else largest) (first + 1) r

/-- `std::max_element(data + first, data + last)` as a position in `data`. -/
def max_element (data : ℕ → ℚ) (first last : ℕ) : ℕ :=
  if first = last then last
  else max_element_loop data first (first + 1) (last - (first + 1))

/-- The buffer `df.data()` of an `n x 1` matrix; only positions below `n` are
ever read. -/
def data {k : ℕ} (v : Vector k) (i : ℕ) : ℚ :=
  if h : i < k then v ⟨i, h⟩ 0 else 0

/-- `Matrix::cwiseAbs` on a vector. -/
def cwiseAbs {k : ℕ} (v : Vector k) : Vector k := fun r c => |v r c|

/-- `Bicycle::best_dependent_coordinate`. -/
def best_dependent_coordinate (E : Evaluator) (b : Bicycle) : ℕ :=
  let df := cwiseAbs (E.f_c_dq b.state_)
  max_element (data df) 0 n - 0

/-- `operator<` of `std::pair<double, int>`: lexicographic. -/
def pair_lt (x y : ℚ × ℕ) : Prop :=
  x.1 < y.1 ∨ (¬ y.1 < x.1 ∧ x.2 < y.2)

instance (x y : ℚ × ℕ) : Decidable (pair_lt x y) := by
  unfold pair_lt; infer_instance

/-- `std::priority_queue<std::pair<double, int>>::push`.  The queue is embedded as
the list of the elements it holds. -/
def pq_push (q : List (ℚ × ℕ)) (x : ℚ × ℕ) : List (ℚ × ℕ) := x :: q

/-- `std::priority_queue::top` with the default `std::less`: a greatest element
of the queue. -/
def pq_top : List (ℚ × ℕ) → ℚ × ℕ
  | [] => (0, 0)
  | x :: xs => xs.foldl (fun best y => if pair_lt best y then y else best) x

/-- `std::priority_queue::pop`: removes the top element. -/
def pq_pop (q : List (ℚ × ℕ)) : List (ℚ × ℕ) := q.erase (pq_top q)

/-- The loop `for (i = 0; i < 6; ++i) q.push(pair(d(i, 0), i))`. -/
def push_scores (d : Fin 6 → ℚ) : List (ℚ × ℕ) :=
  (List.finRange 6).foldl (fun q i => pq_push q (d i, i.val)) []

/-- The loop `indices.insert(q.top().second); q.pop();`, run `k` times. -/
def pop_indices : ℕ → List (ℚ × ℕ) → Finset ℕ → Finset ℕ
  | 0, _, indices => indices
  | k + 1, q, indices => pop_indices k (pq_pop q) (insert (pq_top q).2 indices)

/-- The selection at the end of `best_dependent_speeds`, as a function of the
six scores `d`. -/
def select_speeds (d : Fin 6 → ℚ) : Finset ℕ :=
  pop_indices m (push_scores d) ∅

/-- `Bicycle::best_dependent_speeds`.  The argument `matrixV` stands for Eigen's
`JacobiSVD<Matrix>(B, ComputeThinV).matrixV()`; the rank that the function
prints as a warning does not enter the result. -/
def best_dependent_speeds (matrixV : Matrix (Fin m) (Fin 6) ℚ → Matrix (Fin 6) (Fin m) ℚ)
    (E : Evaluator) (b : Bicycle) : Finset ℕ :=
  let B := block (E.f_v_du b.state_) m 6 0 0 (by decide) (by decide)
  let R := matrixV B
  let d : Fin 6 → ℚ := fun i => ∑ j, R i j ^ 2
  select_speeds d

/-- The scores that `best_dependent_speeds` ranks: `d(i, 0)`, the squared norm of
row `i` of `svd.matrixV()`. -/
def speed_scores (matrixV : Matrix (Fin m) (Fin 6) ℚ → Matrix (Fin 6) (Fin m) ℚ)
    (E : Evaluator) (b : Bicycle) : Fin 6 → ℚ :=
  fun i => ∑ j, matrixV (block (E.f_v_du b.state_) m 6 0 0 (by decide) (by decide)) i j ^ 2

/-! ### The velocity constraint solver -/

/-- Eigen's `FullPivHouseholderQR<Matrix>(A).solve(rhs)` for an `m x m` matrix
`A` and a right-hand side with `k` columns. -/
abbrev Solver := (k : ℕ) → Matrix (Fin m) (Fin m) ℚ → Matrix (Fin m) (Fin k) ℚ →
  Matrix (Fin m) (Fin k) ℚ

/-- The solve is exact on invertible matrices: `A * solve(rhs) = rhs`. -/
def ExactSolve (qr : Solver) : Prop :=
  ∀ (k : ℕ) (A : Matrix (Fin m) (Fin m) ℚ) (rhs : Matrix (Fin m) (Fin k) ℚ),
    IsUnit A.det → A * qr k A rhs = rhs

/-- The speeds `state_.block<o, 1>(n, 0)`. -/
def speeds (s : State) : Vector o := block s o 1 n 0 (by decide) (by decide)

/-- The local `u_i`: the leading `o - m` entries of `P_u_.transpose() * u`. -/
def u_i (b : Bicycle) : Vector (o - m) :=
  block (b.P_u_.transpose * speeds b.state_) (o - m) 1 0 0 (by decide) (by decide)

/-- The local `B` after `B = B * P_u_`. -/
def permuted_B (E : Evaluator) (b : Bicycle) : Matrix (Fin m) (Fin o) ℚ :=
  E.f_v_du b.state_ * b.P_u_

/-- The block `B.block<m, m>(0, o - m)`. -/
def B_d (E : Evaluator) (b : Bicycle) : Matrix (Fin m) (Fin m) ℚ :=
  block (permuted_B E b) m m 0 (o - m) (by decide) (by decide)

/-- The block `B.block<m, o - m>(0, 0)`. -/
def B_i (E : Evaluator) (b : Bicycle) : Matrix (Fin m) (Fin (o - m)) ℚ :=
  block (permuted_B E b) m (o - m) 0 0 (by decide) (by decide)

/-- The local `u_d = -dec.solve(B_i * u_i)`. -/
def u_d (qr : Solver) (E : Evaluator) (b : Bicycle) : Vector m :=
  -(qr 1 (B_d E b) (B_i E b * u_i b))

/-- The loop `state_[*it + n] = u_d[i++]` over the remaining elements of the
set, in iteration order; reading `u_d` past its end has no value. -/
def write_dependent (ud : Vector m) : List (Fin o) → ℕ → State → Option State
  | [], _, s => some s
  | d :: ds, i, s =>
    if h : i < m then write_dependent ud ds (i + 1) (setEntry s (uIdx d) (ud ⟨i, h⟩ 0))
    else none

/-- The returned expression `B_d * u_d + B_i * u_i`. -/
def velocity_residual (qr : Solver) (E : Evaluator) (b : Bicycle) : Vector m :=
  B_d E b * u_d qr E b + B_i E b * u_i b

/-- `Bicycle::solve_velocity_constraints_and_set_state`.  A `std::set<int>` is
iterated in ascending order. -/
def solve_velocity_constraints_and_set_state (qr : Solver) (E : Evaluator) (b : Bicycle) :
    Option (Bicycle × Vector m) :=
  match write_dependent (u_d qr E b) (b.dependent_speeds_.sort (· ≤ ·)) 0 b.state_ with
  | none => none
  | some s => some ({ b with state_ := s }, velocity_residual qr E b)

/-! ### Example inputs for the velocity solver -/

/-- An exact solver: Cramer's rule. -/
def cramer_solve : Solver := fun _ A rhs => A.det⁻¹ • (A.adjugate * rhs)

/-- An evaluator with a constant velocity constraint matrix: row `r` has `2` in
column `r` and `1` in column `9 + r`. -/
def rollingEval : Evaluator where
  f_c := fun _ => 0
  f_c_dq := fun _ => 0
  f_v_du := fun _ => fun r c => if c.val = r.val + 9 then 1 else if c.val = r.val then 2 else 0

/-- A bicycle whose speeds are `u[j] = j + 1`. -/
def rollingBicycle : Bicycle where
  state_ := fun r _ => if 8 ≤ r.val then (r.val : ℚ) - 7 else 0
  dependent_coordinate_ := 2
  dependent_speeds_ := {9, 10, 11}
  P_u_ := 1

/-- Column `o - m + k` of `B * P_u_`: the `k`-th of the trailing `m` columns. -/
def trailing (k : Fin m) : Fin o :=
  ⟨o - m + k.val, by have := k.isLt; simp only [o, m] at this ⊢; omega⟩

/-- Column `j` of `B * P_u_` for `j < o - m`: one of the leading columns. -/
def leading (j : Fin (o - m)) : Fin o :=
  ⟨j.val, by have := j.isLt; omega⟩

/-! ### The constraint Jacobian reducer -/

/-- `Bicycle::Bd_inverse_Bi`: `decomposition.solve(-B.block<m, o - m>(0, 0))`, with
the decomposition that of `B.block<m, m>(0, o - m)`. -/
def Bd_inverse_Bi (qr : Solver) (E : Evaluator) (b : Bicycle) : Matrix (Fin m) (Fin (o - m)) ℚ :=
  qr (o - m) (B_d E b) (-(B_i E b))

/-! ### The equations of motion assembler -/

/-- Number of input channels (`gaf_dr_a_constrained` has `s - 7` columns and is
filled with 15 of them). -/
abbrev s : ℕ := 22

/-- Size of the third axis of the tensor written by `f_v_dudq`. -/
abbrev n_min : ℕ := 3

/-- The model equations used by the assembler, the force reconstructor and the
derivative reconstructors, in addition to those of `Evaluator`.  `f_1` receives
the contents of the buffer it writes into and returns the contents it leaves;
the other functions fill their whole buffer. -/
structure FullEvaluator extends Evaluator where
  /-- Kinematic differential equations, written into a caller's buffer. -/
  f_1 : State → Vector 20 → Vector 20
  /-- Mass matrix. -/
  gif_dud : State → Matrix (Fin o) (Fin o) ℚ
  /-- Generalized inertia forces at zero generalized accelerations. -/
  gif_ud_zero : State → Vector o
  /-- Input coefficient matrix. -/
  gaf_dr : State → Matrix (Fin o) (Fin s) ℚ
  /-- Raw derivatives of the velocity constraint coefficients. -/
  f_v_dudq : State → Vector (m * o * n_min)
  /-- The member function `all_inputs_except_constraint_forces()`, which lives
  outside the numerical layer. -/
  all_inputs_except_constraint_forces : State → Vector (s - 7)

/-- The statement `v.block<k, 1>(0, 0) *= x`. -/
def scale_leading (k : ℕ) (x : ℚ) (v : Vector 20) : Vector 20 :=
  fun r c => if r.val < k then v r c * x else v r c

/-- The local `mm` after `mm = P_u_.transpose() * mm`. -/
def reordered_mm (E : FullEvaluator) (b : Bicycle) : Matrix (Fin o) (Fin o) ℚ :=
  b.P_u_.transpose * E.gif_dud b.state_

/-- The local `mm_c`: the independent rows of `mm` plus the dependent rows
multiplied by `Bd_inverse_Bi().transpose()`. -/
def mm_c (qr : Solver) (E : FullEvaluator) (b : Bicycle) : Matrix (Fin (o - m)) (Fin o) ℚ :=
  block (reordered_mm E b) (o - m) o 0 0 (by decide) (by decide)
    + (Bd_inverse_Bi qr E.toEvaluator b).transpose
      * block (reordered_mm E b) m o (o - m) 0 (by decide) (by decide)

/-- The local `mm` at the end of `state_derivatives`, after
`mm.block<m, o>(0, 0) = cm` and `mm.block<o - m, o>(m, 0) = mm_c`. -/
def assembled_mm (qr : Solver) (E : FullEvaluator) (b : Bicycle) : Matrix (Fin o) (Fin o) ℚ :=
  fun r c =>
    if h : r.val < m then E.f_v_du b.state_ ⟨r.val, h⟩ c
    else mm_c qr E b ⟨r.val - m, by have := r.isLt; omega⟩ c

/-- `Bicycle::state_derivatives`.  `Vector dxdt(20)` is not initialised; `uninit`
stands for the contents it starts with. -/
def state_derivatives (qr : Solver) (E : FullEvaluator) (b : Bicycle) (uninit : Vector 20) :
    Vector 20 :=
  let dxdt := E.f_1 b.state_ uninit
  let dxdt := scale_leading n (-1) dxdt
  let _mm := assembled_mm qr E b
  dxdt

/-! ### The constraint force reconstructor -/

/-- Eigen's `JacobiSVD<Matrix, FullPivHouseholderQRPreconditioner>(A, ...).solve(rhs)`
for the `(o - m) x 7` system of `steady_constraint_forces`. -/
abbrev SvdSolver := Matrix (Fin (o - m)) (Fin 7) ℚ → Vector (o - m) → Vector 7

/-- The squared Euclidean norm of a vector. -/
def sq_norm {k : ℕ} (v : Vector k) : ℚ := ∑ i, v i 0 ^ 2

/-- The value `x` is a least-squares solution of `A * x = rhs`. -/
def IsLeastSquares (A : Matrix (Fin (o - m)) (Fin 7) ℚ) (rhs : Vector (o - m)) (x : Vector 7) :
    Prop :=
  ∀ y : Vector 7, sq_norm (A * x - rhs) ≤ sq_norm (A * y - rhs)

/-- The columns of the reduced matrix that are written into
`gaf_dr_c_constrained`, in the order of the comma initialiser. -/
def constraint_force_columns : Fin 7 → Fin s := ![4, 5, 6, 14, 15, 16, 20]

/-- The columns of the reduced matrix that are written into
`gaf_dr_a_constrained`, in the order of the comma initialiser. -/
def active_force_columns : Fin (s - 7) → Fin s :=
  ![0, 1, 2, 3, 7, 8, 9, 10, 11, 12, 13, 17, 18, 19, 21]

/-- The local `gaf_dr_full` after the rows are reordered. -/
def gaf_dr_full (E : FullEvaluator) (b : Bicycle) : Matrix (Fin o) (Fin s) ℚ :=
  b.P_u_.transpose * E.gaf_dr b.state_

/-- The local `gif_steady` after the rows are reordered. -/
def gif_steady (E : FullEvaluator) (b : Bicycle) : Vector o :=
  b.P_u_.transpose * E.gif_ud_zero b.state_

/-- The local `C = Bd_inverse_Bi().transpose()`. -/
def C (qr : Solver) (E : FullEvaluator) (b : Bicycle) : Matrix (Fin (o - m)) (Fin m) ℚ :=
  (Bd_inverse_Bi qr E.toEvaluator b).transpose

/-- The local `gaf_dr_full_constrained`. -/
def gaf_dr_full_constrained (qr : Solver) (E : FullEvaluator) (b : Bicycle) :
    Matrix (Fin (o - m)) (Fin s) ℚ :=
  block (gaf_dr_full E b) (o - m) s 0 0 (by decide) (by decide)
    + C qr E b * block (gaf_dr_full E b) m s (o - m) 0 (by decide) (by decide)

/-- The local `gif_steady_constrained`. -/
def gif_steady_constrained (qr : Solver) (E : FullEvaluator) (b : Bicycle) : Vector (o - m) :=
  block (gif_steady E b) (o - m) 1 0 0 (by decide) (by decide)
    + C qr E b * block (gif_steady E b) m 1 (o - m) 0 (by decide) (by decide)

/-- The local `gaf_dr_c_constrained`: the columns associated with constraint
forces. -/
def gaf_dr_c_constrained (qr : Solver) (E : FullEvaluator) (b : Bicycle) :
    Matrix (Fin (o - m)) (Fin 7) ℚ :=
  fun r j => gaf_dr_full_constrained qr E b r (constraint_force_columns j)

/-- The local `gaf_dr_a_constrained`: the columns associated with active
forces. -/
def gaf_dr_a_constrained (qr : Solver) (E : FullEvaluator) (b : Bicycle) :
    Matrix (Fin (o - m)) (Fin (s - 7)) ℚ :=
  fun r j => gaf_dr_full_constrained qr E b r (active_force_columns j)

/-- The local `rhs`. -/
def rhs (qr : Solver) (E : FullEvaluator) (b : Bicycle) : Vector (o - m) :=
  -(gif_steady_constrained qr E b
    + gaf_dr_a_constrained qr E b * E.all_inputs_except_constraint_forces b.state_)

/-- `Bicycle::steady_constraint_forces`. -/
def steady_constraint_forces (qr : Solver) (svd : SvdSolver) (E : FullEvaluator) (b : Bicycle) :
    Vector 7 :=
  svd (gaf_dr_c_constrained qr E b) (rhs qr E b)

/-! ### The least-squares system in the words of the specification -/

/-- The index set `{4, 5, 6, 14, 15, 16, 20}` of the constraint force columns. -/
def spec_force_set : Finset (Fin s) := {4, 5, 6, 14, 15, 16, 20}

/-- The other 15 columns, in ascending order. -/
def spec_other_columns : Fin (s - 7) → Fin s :=
  (Finset.univ \ spec_force_set).orderEmbOfFin (by decide)

/-- The matrix `G_r = G[rows 0..o-m-1] + E^T * G[rows o-m..o-1]` with
`G = P_u^T * gaf_dr` and `E = Bd_inverse_Bi()`, entry by entry. -/
def spec_G_r (qr : Solver) (E : FullEvaluator) (b : Bicycle) : Matrix (Fin (o - m)) (Fin s) ℚ :=
  fun i c =>
    (b.P_u_.transpose * E.gaf_dr b.state_) ⟨i.val, by have := i.isLt; omega⟩ c
      + ∑ k : Fin m, Bd_inverse_Bi qr E.toEvaluator b k i
          * (b.P_u_.transpose * E.gaf_dr b.state_) ⟨o - m + k.val, by have := k.isLt; simp only [o, m] at this ⊢; omega⟩ c

/-- The vector `g_r = g[0..o-m-1] + E^T * g[o-m..o-1]` with
`g = P_u^T * gif_ud_zero`, entry by entry. -/
def spec_g_r (qr : Solver) (E : FullEvaluator) (b : Bicycle) : Vector (o - m) :=
  fun i c =>
    (b.P_u_.transpose * E.gif_ud_zero b.state_) ⟨i.val, by have := i.isLt; omega⟩ c
      + ∑ k : Fin m, Bd_inverse_Bi qr E.toEvaluator b k i
          * (b.P_u_.transpose * E.gif_ud_zero b.state_)
              ⟨o - m + k.val, by have := k.isLt; simp only [o, m] at this ⊢; omega⟩ c

/-- The matrix `A`: columns `(4, 5, 6, 14, 15, 16, 20)` of `G_r`. -/
def spec_A (qr : Solver) (E : FullEvaluator) (b : Bicycle) : Matrix (Fin (o - m)) (Fin 7) ℚ :=
  fun i j => spec_G_r qr E b i (![4, 5, 6, 14, 15, 16, 20] j)

/-- The matrix `K`: the other 15 columns of `G_r` in ascending order. -/
def spec_K (qr : Solver) (E : FullEvaluator) (b : Bicycle) :
    Matrix (Fin (o - m)) (Fin (s - 7)) ℚ :=
  fun i j => spec_G_r qr E b i (spec_other_columns j)

/-- The right-hand side `-(g_r + K * all_inputs_except_constraint_forces())`. -/
def spec_rhs (qr : Solver) (E : FullEvaluator) (b : Bicycle) : Vector (o - m) :=
  -(spec_g_r qr E b + spec_K qr E b * E.all_inputs_except_constraint_forces b.state_)

/-! ### The constraint Jacobian derivative reconstructors

`Matrix` is stored row by row: `points_of_interest` fills a `7 x 3` matrix with
one point after the other at `mat.data() + 3 * i`, and the formulation in the
comment of `f_v_dq` reads a `m x o` map with strides `(m * o, n_min)`, which stays
inside the buffer only when the first stride is the distance between rows. -/

/-- `Map<Matrix, Unaligned, Stride<outer, inner>>(ptr, rows, cols)` on a row-major
matrix: entry `(r, c)` is `ptr[r * outer + c * inner]`. -/
def Map (ptr : ℕ → ℚ) (rows cols outer inner : ℕ) : Matrix (Fin rows) (Fin cols) ℚ :=
  fun r c => ptr (r.val * outer + c.val * inner)

/-- The pointer `ptr + i`. -/
def advance (ptr : ℕ → ℚ) (i : ℕ) : ℕ → ℚ := fun k => ptr (i + k)

/-- The product `M * x` of a matrix and a scalar. -/
def scale {R K : ℕ} (M : Matrix (Fin R) (Fin K) ℚ) (x : ℚ) : Matrix (Fin R) (Fin K) ℚ :=
  fun r c => M r c * x

/-- The statement `M.block<r, c>(i, j) += T`. -/
def block_add {R K r c : ℕ} (M : Matrix (Fin R) (Fin K) ℚ) (i j : ℕ)
    (T : Matrix (Fin r) (Fin c) ℚ) : Matrix (Fin R) (Fin K) ℚ :=
  fun a d =>
    if h : (i ≤ a.val ∧ a.val < i + r) ∧ (j ≤ d.val ∧ d.val < j + c) then
      M a d + T ⟨a.val - i, by omega⟩ ⟨d.val - j, by omega⟩
    else M a d

/-- `Bicycle::f_v_dudt`. -/
def f_v_dudt (E : FullEvaluator) (b : Bicycle) : Matrix (Fin m) (Fin o) ℚ :=
  let fvdq := E.f_v_dudq b.state_
  (List.range 3).foldl
    (fun Bdot i =>
      let ui := data b.state_ (n + i + 1)
      Bdot + scale (Map (advance (data fvdq) i) m o (m * n_min) n_min) ui)
    0

/-- `Bicycle::f_v_dq`. -/
def f_v_dq (E : FullEvaluator) (b : Bicycle) : Matrix (Fin m) (Fin n) ℚ :=
  let B_dq_raw := E.f_v_dudq b.state_
  (List.range o).foldl
    (fun mat j =>
      let tmp := Map (advance (data B_dq_raw) (n_min * j)) n_min n_min (n_min * o) 1
      let tmp := scale tmp (data b.state_ (n + j))
      block_add mat 0 1 tmp)
    0

/-! ### The derivative reconstructors in the words of the specification -/

/-- The flattening `T(r, c, k) = raw[(r * o + c) * n_min + k]`: constraint row,
then speed column, then third axis. -/
def T (raw : ℕ → ℚ) (r c k : ℕ) : ℚ := raw ((r * o + c) * n_min + k)

/-- The contraction `sum_{k = 0..2} T(r, c, k) * u[k + 1]`. -/
def spec_f_v_dudt (raw : ℕ → ℚ) (st : State) : Matrix (Fin m) (Fin o) ℚ :=
  fun r c => ∑ k : Fin 3, T raw r.val c.val k.val * data st (n + (k.val + 1))

/-- The formulation in the comment of `f_v_dq`: for `k = 1, 2, 3`, column `k` is
`S_k * u` with `S_k` the `m x o` map with strides `(m * o, n_min)` at
`raw + k - 1`; the other columns are zero. -/
def comment_f_v_dq (raw : ℕ → ℚ) (st : State) : Matrix (Fin m) (Fin n) ℚ :=
  fun r c =>
    if 1 ≤ c.val ∧ c.val < n_min + 1 then
      (Map (advance raw (c.val - 1)) m o (m * o) n_min * speeds st) r 0
    else 0

/-! ### Example inputs for the ranking of the speeds -/

/-- A right-singular-vector matrix whose rows have the squared norms
`3, 3, 3, 3, 0, 5`. -/
def tieV : Matrix (Fin m) (Fin 6) ℚ → Matrix (Fin 6) (Fin m) ℚ :=
  fun _ i j =>
    if i.val = 4 then 0
    else if i.val = 5 then (if j.val = 0 then 2 else if j.val = 1 then 1 else 0)
    else 1

/-! ### Example inputs for the assembler -/

/-- Kinematic equations that write `u[k]` into entry `k < n` of the buffer and
leave the other entries as they find them. -/
def speeds_f_1 : State → Vector 20 → Vector 20 :=
  fun st buf r c => if h : r.val < n then st ⟨r.val + n, by simp only [n] at h ⊢; omega⟩ c
    else buf r c

/-- The evaluator `rollingEval` with the identity as mass matrix. -/
def rollingModel : FullEvaluator :=
  { rollingEval with
    f_1 := speeds_f_1
    gif_dud := fun _ => 1
    gif_ud_zero := fun _ => 0
    gaf_dr := fun _ => 0
    f_v_dudq := fun _ => 0
    all_inputs_except_constraint_forces := fun _ => 0 }

/-- The same kinematic equations with no velocity constraints and the mass
matrix `2`. -/
def freeModel : FullEvaluator :=
  { pitchEval (fun x => x) (fun _ => 1) with
    f_1 := speeds_f_1
    gif_dud := fun _ => 2
    gif_ud_zero := fun _ => 0
    gaf_dr := fun _ => 0
    f_v_dudq := fun _ => 0
    all_inputs_except_constraint_forces := fun _ => 0 }

/-! ### Example inputs for the derivative reconstructors -/

/-- A model whose raw tensor has the single non-zero entry `raw[36] = 1`, that
is `T(1, 0, 0) = 1`. -/
def tensorModel : FullEvaluator :=
  { rollingEval with
    f_1 := speeds_f_1
    gif_dud := fun _ => 1
    gif_ud_zero := fun _ => 0
    gaf_dr := fun _ => 0
    f_v_dudq := fun _ => fun i _ => if i.val = 36 then 1 else 0
    all_inputs_except_constraint_forces := fun _ => 0 }

/-- A bicycle whose only non-zero speed is the lean rate `u[1] = 1`. -/
def leanRateBicycle : Bicycle where
  state_ := fun r _ => if r.val = 9 then 1 else 0
  dependent_coordinate_ := 2
  dependent_speeds_ := {9, 10, 11}
  P_u_ := 1

/-! ### Example inputs for the force reconstructor -/

/-- The evaluator `rollingEval` with an input coefficient matrix whose row
`r < 7` has a single `1`, in the `r`-th constraint force column, inertia forces
`r + 1` in the independent rows `r < 9`, and all known inputs equal to `1`. -/
def forceModel : FullEvaluator :=
  { rollingEval with
    f_1 := speeds_f_1
    gif_dud := fun _ => 1
    gif_ud_zero := fun _ => fun r _ => if r.val < 9 then (r.val : ℚ) + 1 else 0
    gaf_dr := fun _ => fun r c =>
      if h : r.val < 7 then (if c = constraint_force_columns ⟨r.val, h⟩ then 1 else 0) else 0
    f_v_dudq := fun _ => 0
    all_inputs_except_constraint_forces := fun _ => fun _ _ => 1 }

/-- A solve that returns the leading seven entries of the right-hand side: a
least-squares solve for systems whose matrix is the identity on top of two
zero rows. -/
def leading_entries_solve : SvdSolver :=
  fun _ rhs => fun j _ => rhs ⟨j.val, by have := j.isLt; simp only [o, m]; omega⟩ 0

/-! # Theorems -/

/-! ## The configuration constraint solver -/

theorem setEntry_ne {k : ℕ} (v : Vector k) (i r : Fin k) (x : ℚ) (c : Fin 1) (h : r ≠ i) :
    setEntry v i x r c = v r c := by
  simp [setEntry, h]

theorem setEntry_self {k : ℕ} (v : Vector k) (i : Fin k) (x : ℚ) (c : Fin 1) :
    setEntry v i x i c = x := by
  simp [setEntry]

theorem setEntry_setEntry {k : ℕ} (v : Vector k) (i : Fin k) (x y : ℚ) :
    setEntry (setEntry v i x) i y = setEntry v i y := by
  funext r c
  by_cases h : r = i <;> simp [setEntry, h]

theorem setEntry_eq_self {k : ℕ} (v : Vector k) (i : Fin k) :
    setEntry v i (v i 0) = v := by
  funext r c
  by_cases h : r = i
  · subst h
    have hc : c = 0 := Subsingleton.elim _ _
    simp [setEntry, hc]
  · simp [setEntry, h]

theorem newton_iterate_succ (E : Evaluator) (dep : Fin n) (s : State) (k : ℕ) :
    newton_iterate E dep (newton_step E dep s) k = newton_iterate E dep s (k + 1) := by
  simp [newton_iterate]

theorem newton_iterate_ne (E : Evaluator) (dep : Fin n) (s : State) (k : ℕ)
    (r : Fin 20) (c : Fin 1) (h : r ≠ qIdx dep) :
    newton_iterate E dep s k r c = s r c := by
  induction k generalizing s with
  | zero => simp [newton_iterate]
  | succ k ih =>
    rw [← newton_iterate_succ, ih, newton_step, setEntry_ne _ _ _ _ _ h]

theorem setEntry_newton_iterate (E : Evaluator) (dep : Fin n) (s : State) (k : ℕ) (x : ℚ) :
    setEntry (newton_iterate E dep s k) (qIdx dep) x = setEntry s (qIdx dep) x := by
  funext r c
  by_cases h : r = qIdx dep
  · simp [setEntry, h]
  · rw [setEntry_ne _ _ _ _ _ h, setEntry_ne _ _ _ _ _ h, newton_iterate_ne _ _ _ _ _ _ h]

/-- One pass through the loop body when the degenerate check fires. -/
theorem newton_loop_degenerate (E : Evaluator) (dep : Fin n) (ftol : ℚ) (iter : ℤ) (q0 : ℚ)
    (s : State) (i : ℤ) (h : degenerate E dep s) :
    newton_loop E dep ftol iter q0 s i = (setEntry s (qIdx dep) q0, i, E.f_c s) := by
  rw [newton_loop]; simp [h]

/-- One pass through the loop body when the loop condition holds. -/
theorem newton_loop_continue (E : Evaluator) (dep : Fin n) (ftol : ℚ) (iter : ℤ) (q0 : ℚ)
    (s : State) (i : ℤ) (h : ¬ degenerate E dep s) (hc : i + 1 < iter ∧ |E.f_c s| > ftol) :
    newton_loop E dep ftol iter q0 s i
      = newton_loop E dep ftol iter q0 (newton_step E dep s) (i + 1) := by
  rw [newton_loop]; simp only [h, hc]; simp

/-- One pass through the loop body when the loop condition fails. -/
theorem newton_loop_exit (E : Evaluator) (dep : Fin n) (ftol : ℚ) (iter : ℤ) (q0 : ℚ)
    (s : State) (i : ℤ) (h : ¬ degenerate E dep s) (hc : ¬ (i + 1 < iter ∧ |E.f_c s| > ftol)) :
    newton_loop E dep ftol iter q0 s i = (newton_step E dep s, i + 1, E.f_c s) := by
  rw [newton_loop]; simp only [h, hc]; simp

/-- A run that passes the degenerate check `k + 1` times, continues after each
of the first `k` steps and fails the loop condition after step `k + 1`. -/
theorem newton_loop_run (E : Evaluator) (dep : Fin n) (ftol : ℚ) (iter : ℤ) (q0 : ℚ)
    (k : ℕ) : ∀ (s : State) (i : ℤ),
    (∀ j, j ≤ k → ¬ degenerate E dep (newton_iterate E dep s j)) →
    (∀ j, j < k → (i + j + 1 < iter ∧ |E.f_c (newton_iterate E dep s j)| > ftol)) →
    ¬ (i + k + 1 < iter ∧ |E.f_c (newton_iterate E dep s k)| > ftol) →
    newton_loop E dep ftol iter q0 s i
      = (newton_iterate E dep s (k + 1), i + k + 1, E.f_c (newton_iterate E dep s k)) := by
  induction k with
  | zero =>
    intro s i hnd _ hstop
    have h0 : ¬ degenerate E dep s := hnd 0 le_rfl
    have hs : ¬ (i + 1 < iter ∧ |E.f_c s| > ftol) := by
      simpa [newton_iterate] using hstop
    rw [newton_loop_exit E dep ftol iter q0 s i h0 hs]
    simp [newton_iterate]
  | succ k ih =>
    intro s i hnd hcont hstop
    have h0 : ¬ degenerate E dep s := hnd 0 (Nat.zero_le _)
    have hc : i + 1 < iter ∧ |E.f_c s| > ftol := by
      simpa [newton_iterate] using hcont 0 (Nat.succ_pos _)
    rw [newton_loop_continue E dep ftol iter q0 s i h0 hc,
      ih (newton_step E dep s) (i + 1)]
    · simp only [newton_iterate_succ]
      push_cast
      simp only [add_assoc, add_comm (1 : ℤ)]
    · intro j hj
      rw [newton_iterate_succ]
      exact hnd (j + 1) (by omega)
    · intro j hj
      rw [newton_iterate_succ]
      have := hcont (j + 1) (by omega)
      push_cast at this
      constructor
      · linarith [this.1]
      · exact this.2
    · rw [newton_iterate_succ]
      intro hh
      apply hstop
      push_cast
      constructor
      · linarith [hh.1]
      · exact hh.2

/-- A run that takes `k` Newton steps and then fails the degenerate check. -/
theorem newton_loop_abort (E : Evaluator) (dep : Fin n) (ftol : ℚ) (iter : ℤ) (q0 : ℚ)
    (k : ℕ) : ∀ (s : State) (i : ℤ),
    (∀ j, j < k → ¬ degenerate E dep (newton_iterate E dep s j)) →
    (∀ j, j < k → (i + j + 1 < iter ∧ |E.f_c (newton_iterate E dep s j)| > ftol)) →
    degenerate E dep (newton_iterate E dep s k) →
    newton_loop E dep ftol iter q0 s i
      = (setEntry s (qIdx dep) q0, i + k, E.f_c (newton_iterate E dep s k)) := by
  induction k with
  | zero =>
    intro s i _ _ hdeg
    have h0 : degenerate E dep s := by simpa [newton_iterate] using hdeg
    rw [newton_loop_degenerate E dep ftol iter q0 s i h0]
    simp [newton_iterate]
  | succ k ih =>
    intro s i hnd hcont hdeg
    have h0 : ¬ degenerate E dep s := hnd 0 (Nat.succ_pos _)
    have hc : i + 1 < iter ∧ |E.f_c s| > ftol := by
      simpa [newton_iterate] using hcont 0 (Nat.succ_pos _)
    rw [newton_loop_continue E dep ftol iter q0 s i h0 hc,
      ih (newton_step E dep s) (i + 1)]
    · simp only [newton_iterate_succ]
      push_cast
      have hset : setEntry (newton_step E dep s) (qIdx dep) q0 = setEntry s (qIdx dep) q0 := by
        rw [newton_step, setEntry_setEntry]
      rw [hset]
      simp only [add_assoc, add_comm (1 : ℤ)]
    · intro j hj
      rw [newton_iterate_succ]
      exact hnd (j + 1) (by omega)
    · intro j hj
      rw [newton_iterate_succ]
      have := hcont (j + 1) (by omega)
      push_cast at this
      constructor
      · linarith [this.1]
      · exact this.2
    · rw [newton_iterate_succ]
      exact hdeg

/-- Every run is of one of the two shapes above: there is a pass `k` (counted
from 0) before which the loop always continued and at which it either aborts on
the degenerate check or fails the loop condition. -/
theorem newton_loop_trace (E : Evaluator) (dep : Fin n) (ftol : ℚ) (iter : ℤ)
    (d : ℕ) : ∀ (s : State) (i : ℤ), (iter - i).toNat ≤ d →
    ∃ k : ℕ, (∀ j, j < k → ¬ degenerate E dep (newton_iterate E dep s j)) ∧
      (∀ j, j < k → (i + j + 1 < iter ∧ |E.f_c (newton_iterate E dep s j)| > ftol)) ∧
      (degenerate E dep (newton_iterate E dep s k) ∨
        (¬ degenerate E dep (newton_iterate E dep s k) ∧
          ¬ (i + k + 1 < iter ∧ |E.f_c (newton_iterate E dep s k)| > ftol))) := by
  induction d with
  | zero =>
    intro s i hd
    refine ⟨0, by simp, by simp, ?_⟩
    by_cases h0 : degenerate E dep (newton_iterate E dep s 0)
    · exact Or.inl h0
    · refine Or.inr ⟨h0, ?_⟩
      rintro ⟨h1, _⟩
      simp only [Nat.cast_zero, add_zero] at h1
      omega
  | succ d ih =>
    intro s i hd
    by_cases h0 : degenerate E dep (newton_iterate E dep s 0)
    · exact ⟨0, by simp, by simp, Or.inl h0⟩
    by_cases hc : i + 1 < iter ∧ |E.f_c s| > ftol
    · obtain ⟨k, hnd, hcont, hend⟩ := ih (newton_step E dep s) (i + 1) (by omega)
      simp only [newton_iterate_succ] at hnd hcont hend
      refine ⟨k + 1, ?_, ?_, ?_⟩
      · intro j hj
        rcases Nat.eq_zero_or_pos j with rfl | hpos
        · exact h0
        · obtain ⟨j', rfl⟩ : ∃ j', j = j' + 1 := ⟨j - 1, by omega⟩
          exact hnd j' (by omega)
      · intro j hj
        rcases Nat.eq_zero_or_pos j with rfl | hpos
        · simpa [newton_iterate] using hc
        · obtain ⟨j', rfl⟩ : ∃ j', j = j' + 1 := ⟨j - 1, by omega⟩
          have := hcont j' (by omega)
          push_cast
          exact ⟨by linarith [this.1], this.2⟩
      · rcases hend with hdeg | ⟨hnd', hstop⟩
        · exact Or.inl hdeg
        · refine Or.inr ⟨hnd', ?_⟩
          rintro ⟨h1, h2⟩
          apply hstop
          push_cast at h1
          exact ⟨by linarith, h2⟩
    · refine ⟨0, by simp, by simp, Or.inr ⟨h0, ?_⟩⟩
      simpa [newton_iterate] using hc

theorem solve_configuration_abort (E : Evaluator) (b : Bicycle) (ftol : ℚ) (iter : ℤ) (k : ℕ)
    (h : aborts_after E b.dependent_coordinate_ ftol iter b.state_ k) :
    solve_configuration_constraint_and_set_state E b ftol iter
      = (b, (k : ℤ), E.f_c (newton_iterate E b.dependent_coordinate_ b.state_ k)) := by
  obtain ⟨hnd, hcont, hdeg⟩ := h
  have hrun := newton_loop_abort E b.dependent_coordinate_ ftol iter
    (b.state_ (qIdx b.dependent_coordinate_) 0) k b.state_ 0 hnd
    (by intro j hj; simpa using hcont j hj) hdeg
  simp only [solve_configuration_constraint_and_set_state, hrun, setEntry_eq_self, zero_add]

/-! ### The example evaluator -/

theorem pitchEval_f_c (f df : ℚ → ℚ) (x : ℚ) : (pitchEval f df).f_c (pitchState x) = f x := by
  simp [pitchEval, pitchState]

theorem pitchEval_degenerate (f df : ℚ → ℚ) (x : ℚ) :
    degenerate (pitchEval f df) 2 (pitchState x) ↔ |df x| < 1 / 10 ^ 14 := by
  simp [degenerate, pitchEval, pitchState, df_min]

theorem pitchEval_step (f df : ℚ → ℚ) (x : ℚ) :
    newton_step (pitchEval f df) 2 (pitchState x) = pitchState (x - f x / df x) := by
  funext r c
  by_cases h : r = 2
  · subst h
    simp [newton_step, setEntry, pitchEval, pitchState, qIdx]
  · have h' : r ≠ qIdx 2 := h
    simp [newton_step, setEntry, pitchState, h, h']

/-- A call whose first pass takes its step and then fails the loop condition. -/
theorem solve_configuration_one_step (E : Evaluator) (b : Bicycle) (ftol : ℚ) (iter : ℤ)
    (hnd : ¬ degenerate E b.dependent_coordinate_ b.state_)
    (hstop : ¬ (1 < iter ∧ |E.f_c b.state_| > ftol)) :
    solve_configuration_constraint_and_set_state E b ftol iter
      = ({ b with state_ := newton_step E b.dependent_coordinate_ b.state_ }, 1,
          E.f_c b.state_) := by
  have h := newton_loop_exit E b.dependent_coordinate_ ftol iter
    (b.state_ (qIdx b.dependent_coordinate_) 0) b.state_ 0 hnd (by simpa using hstop)
  simp only [solve_configuration_constraint_and_set_state, h, zero_add]

/-- Every call either aborts after some number `k` of Newton steps, or takes
`k + 1` steps, continuing after each of the first `k` and failing the loop
condition after the last. -/
theorem solve_configuration_cases (E : Evaluator) (b : Bicycle) (ftol : ℚ) (iter : ℤ) :
    ∃ k : ℕ,
      (aborts_after E b.dependent_coordinate_ ftol iter b.state_ k ∧
        solve_configuration_constraint_and_set_state E b ftol iter
          = (b, (k : ℤ), E.f_c (newton_iterate E b.dependent_coordinate_ b.state_ k))) ∨
      ((∀ j, j ≤ k → ¬ degenerate E b.dependent_coordinate_
            (newton_iterate E b.dependent_coordinate_ b.state_ j)) ∧
        (∀ j, j < k → ((j : ℤ) + 1 < iter ∧
            |E.f_c (newton_iterate E b.dependent_coordinate_ b.state_ j)| > ftol)) ∧
        ¬ ((k : ℤ) + 1 < iter ∧
            |E.f_c (newton_iterate E b.dependent_coordinate_ b.state_ k)| > ftol) ∧
        solve_configuration_constraint_and_set_state E b ftol iter
          = ({ b with state_ := newton_iterate E b.dependent_coordinate_ b.state_ (k + 1) },
              (k : ℤ) + 1, E.f_c (newton_iterate E b.dependent_coordinate_ b.state_ k))) := by
  obtain ⟨k, hnd, hcont, hend⟩ := newton_loop_trace E b.dependent_coordinate_ ftol iter
    (iter - 0).toNat b.state_ 0 le_rfl
  simp only [zero_add] at hcont hend
  refine ⟨k, ?_⟩
  rcases hend with hdeg | ⟨hnd', hstop⟩
  · exact Or.inl ⟨⟨hnd, hcont, hdeg⟩, solve_configuration_abort E b ftol iter k ⟨hnd, hcont, hdeg⟩⟩
  · refine Or.inr ⟨?_, hcont, hstop, ?_⟩
    · intro j hj
      rcases Nat.lt_or_eq_of_le hj with hlt | rfl
      · exact hnd j hlt
      · exact hnd'
    · have hall : ∀ j, j ≤ k → ¬ degenerate E b.dependent_coordinate_
          (newton_iterate E b.dependent_coordinate_ b.state_ j) := by
        intro j hj
        rcases Nat.lt_or_eq_of_le hj with hlt | rfl
        · exact hnd j hlt
        · exact hnd'
      have hrun := newton_loop_run E b.dependent_coordinate_ ftol iter
        (b.state_ (qIdx b.dependent_coordinate_) 0) k b.state_ 0 hall
        (by intro j hj; simpa using hcont j hj) (by simpa using hstop)
      simp only [solve_configuration_constraint_and_set_state, hrun, zero_add]

theorem newton_iterate_succ_apply (E : Evaluator) (dep : Fin n) (s : State) (k : ℕ) :
    newton_iterate E dep s (k + 1) = newton_step E dep (newton_iterate E dep s k) := by
  simp only [newton_iterate, Function.iterate_succ_apply']

/-- With `f_c = q[2]^2 + 1`, pitch `1`, `ftol = 1` and `iter = 10` the first
pass steps to pitch `0` and continues (`|f| = 2 > 1`); the second pass finds the
derivative `0` and aborts. -/
theorem pitchEval_aborts_after_one :
    aborts_after (pitchEval (fun x => x ^ 2 + 1) (fun x => 2 * x))
      (pitchBicycle 1).dependent_coordinate_ 1 10 (pitchBicycle 1).state_ 1 := by
  show aborts_after _ 2 1 10 (pitchState 1) 1
  have hstep : newton_iterate (pitchEval (fun x => x ^ 2 + 1) (fun x => 2 * x)) 2
      (pitchState 1) 1 = pitchState 0 := by
    rw [newton_iterate_succ_apply]
    simp only [newton_iterate, Function.iterate_zero, id_eq]
    rw [pitchEval_step]; norm_num
  refine ⟨?_, ?_, ?_⟩
  · intro j hj
    obtain rfl : j = 0 := by omega
    simp only [newton_iterate, Function.iterate_zero, id_eq]
    rw [pitchEval_degenerate]; norm_num [abs_of_pos]
  · intro j hj
    obtain rfl : j = 0 := by omega
    simp only [newton_iterate, Function.iterate_zero, id_eq]
    rw [pitchEval_f_c]; norm_num [abs_of_pos]
  · rw [hstep, pitchEval_degenerate]; norm_num

theorem pitchEval_iterate (f df : ℚ → ℚ) (x : ℚ) (j : ℕ) :
    ∃ y, newton_iterate (pitchEval f df) 2 (pitchState x) j = pitchState y := by
  induction j with
  | zero => exact ⟨x, by simp [newton_iterate]⟩
  | succ j ih =>
    obtain ⟨y, hy⟩ := ih
    exact ⟨y - f y / df y, by rw [newton_iterate_succ_apply, hy, pitchEval_step]⟩

/-- With the constant derivative `1` the degenerate check never fires. -/
theorem pitchEval_unit_slope_not_degenerate (f : ℚ → ℚ) (x : ℚ) (j : ℕ) :
    ¬ degenerate (pitchEval f (fun _ => 1)) 2
      (newton_iterate (pitchEval f (fun _ => 1)) 2 (pitchState x) j) := by
  obtain ⟨y, hy⟩ := pitchEval_iterate f (fun _ => 1) x j
  rw [hy, pitchEval_degenerate]
  norm_num

/-- A call on the example evaluator whose first pass takes its step and then
fails the loop condition. -/
theorem solve_pitch_one_step (f df : ℚ → ℚ) (x ftol : ℚ) (iter : ℤ)
    (hnd : ¬ |df x| < 1 / 10 ^ 14) (hstop : ¬ (1 < iter ∧ |f x| > ftol)) :
    solve_configuration_constraint_and_set_state (pitchEval f df) (pitchBicycle x) ftol iter
      = (pitchBicycle (x - f x / df x), 1, f x) := by
  have h1 : ¬ degenerate (pitchEval f df) (pitchBicycle x).dependent_coordinate_
      (pitchBicycle x).state_ := by
    show ¬ degenerate _ 2 (pitchState x)
    rw [pitchEval_degenerate]; exact hnd
  have h2 : ¬ (1 < iter ∧ |(pitchEval f df).f_c (pitchBicycle x).state_| > ftol) := by
    show ¬ (1 < iter ∧ |(pitchEval f df).f_c (pitchState x)| > ftol)
    rw [pitchEval_f_c]; exact hstop
  rw [solve_configuration_one_step _ _ _ _ h1 h2]
  show ({ pitchBicycle x with state_ := newton_step (pitchEval f df) 2 (pitchState x) }, (1 : ℤ),
    (pitchEval f df).f_c (pitchState x)) = _
  rw [pitchEval_step, pitchEval_f_c]
  rfl

/-- The first call of the idempotence example: from pitch `2` it takes one step
to pitch `5/4`. -/
theorem pitch_scaled_quadratic_first_call :
    solve_configuration_constraint_and_set_state
        (pitchEval (fun x => (x ^ 2 - 1) / 100) (fun x => x / 50)) (pitchBicycle 2) (3 / 100) 10
      = (pitchBicycle (5 / 4), 1, 3 / 100) := by
  rw [solve_pitch_one_step _ _ _ _ _ (by norm_num [abs_of_pos]) (by norm_num [abs_of_pos])]
  norm_num

/-! ### C1 -/

/-- C1, counterexample: with `f_c = q[2]^2 - 1`, pitch `1/10`, `ftol = 1` and
`iter = 10` the call returns `(1, -99/100)`, so it reports `|f| ≤ ftol`, but the
state it leaves behind has pitch `101/20`, where the constraint evaluates to
`9801/400 > ftol`. -/
theorem C1_counterexample :
    (solve_configuration_constraint_and_set_state
        (pitchEval (fun x => x ^ 2 - 1) (fun x => 2 * x)) (pitchBicycle (1 / 10)) 1 10).2
      = (1, -99 / 100) ∧
    |(solve_configuration_constraint_and_set_state
        (pitchEval (fun x => x ^ 2 - 1) (fun x => 2 * x)) (pitchBicycle (1 / 10)) 1 10).2.2| ≤ 1 ∧
    (pitchEval (fun x => x ^ 2 - 1) (fun x => 2 * x)).f_c
      (solve_configuration_constraint_and_set_state
        (pitchEval (fun x => x ^ 2 - 1) (fun x => 2 * x)) (pitchBicycle (1 / 10)) 1 10).1.state_
      = 9801 / 400 ∧
    ¬ |(pitchEval (fun x => x ^ 2 - 1) (fun x => 2 * x)).f_c
      (solve_configuration_constraint_and_set_state
        (pitchEval (fun x => x ^ 2 - 1) (fun x => 2 * x)) (pitchBicycle (1 / 10)) 1 10).1.state_|
      ≤ 1 := by
  have hnd : ¬ degenerate (pitchEval (fun x => x ^ 2 - 1) (fun x => 2 * x))
      (pitchBicycle (1 / 10)).dependent_coordinate_ (pitchBicycle (1 / 10)).state_ := by
    show ¬ degenerate _ 2 (pitchState (1 / 10))
    rw [pitchEval_degenerate]; norm_num [abs_of_pos]
  have hstop : ¬ ((1 : ℤ) < 10 ∧
      |(pitchEval (fun x => x ^ 2 - 1) (fun x => 2 * x)).f_c (pitchBicycle (1 / 10)).state_|
        > 1) := by
    show ¬ ((1 : ℤ) < 10 ∧ |(pitchEval _ _).f_c (pitchState (1 / 10))| > 1)
    rw [pitchEval_f_c]; norm_num [abs_le]
  rw [solve_configuration_one_step _ _ _ _ hnd hstop]
  have hs : newton_step (pitchEval (fun x => x ^ 2 - 1) (fun x => 2 * x))
      (pitchBicycle (1 / 10)).dependent_coordinate_ (pitchBicycle (1 / 10)).state_
      = pitchState (101 / 20) := by
    show newton_step _ 2 (pitchState (1 / 10)) = _
    rw [pitchEval_step]; norm_num
  have hf : (pitchEval (fun x => x ^ 2 - 1) (fun x => 2 * x)).f_c (pitchBicycle (1 / 10)).state_
      = -99 / 100 := by
    show (pitchEval _ _).f_c (pitchState (1 / 10)) = _
    rw [pitchEval_f_c]; norm_num
  simp only [hs, hf, pitchEval_f_c]
  norm_num [abs_le, abs_of_pos]

/-- C1, amended: when the call returns with `|f| ≤ ftol`, the returned residual
is the constraint evaluated at the last state `s` examined by the loop, which
differs from the pre-call state in the dependent coordinate at most; the state
left behind is `s` after one more Newton step, or the pre-call state when the
degenerate check fired at `s`. -/
theorem C1_returned_residual_is_pre_step (E : Evaluator) (b : Bicycle) (ftol : ℚ) (iter : ℤ)
    (h : |(solve_configuration_constraint_and_set_state E b ftol iter).2.2| ≤ ftol) :
    ∃ s : State,
      (∀ r c, r ≠ qIdx b.dependent_coordinate_ → s r c = b.state_ r c) ∧
      (solve_configuration_constraint_and_set_state E b ftol iter).2.2 = E.f_c s ∧
      |E.f_c s| ≤ ftol ∧
      ((¬ degenerate E b.dependent_coordinate_ s ∧
          (solve_configuration_constraint_and_set_state E b ftol iter).1.state_
            = newton_step E b.dependent_coordinate_ s) ∨
        (degenerate E b.dependent_coordinate_ s ∧
          (solve_configuration_constraint_and_set_state E b ftol iter).1.state_ = b.state_)) := by
  obtain ⟨k, ⟨hab, hres⟩ | ⟨hnd, _, _, hres⟩⟩ := solve_configuration_cases E b ftol iter
  · refine ⟨newton_iterate E b.dependent_coordinate_ b.state_ k, ?_, ?_, ?_, Or.inr ⟨hab.2.2, ?_⟩⟩
    · intro r c hr
      exact newton_iterate_ne E _ _ k r c hr
    · rw [hres]
    · rw [hres] at h; exact h
    · rw [hres]
  · refine ⟨newton_iterate E b.dependent_coordinate_ b.state_ k, ?_, ?_, ?_,
      Or.inl ⟨hnd k le_rfl, ?_⟩⟩
    · intro r c hr
      exact newton_iterate_ne E _ _ k r c hr
    · rw [hres]
    · rw [hres] at h; exact h
    · rw [hres, newton_iterate_succ_apply]

/-- C1, witness: the call of the counterexample. -/
theorem C1_returned_residual_is_pre_step_witness :
    ∃ s : State,
      (∀ r c, r ≠ qIdx (pitchBicycle (1 / 10)).dependent_coordinate_ →
        s r c = (pitchBicycle (1 / 10)).state_ r c) ∧
      (solve_configuration_constraint_and_set_state
        (pitchEval (fun x => x ^ 2 - 1) (fun x => 2 * x)) (pitchBicycle (1 / 10)) 1 1).2.2
        = (pitchEval (fun x => x ^ 2 - 1) (fun x => 2 * x)).f_c s ∧
      |(pitchEval (fun x => x ^ 2 - 1) (fun x => 2 * x)).f_c s| ≤ 1 ∧
      ((¬ degenerate (pitchEval (fun x => x ^ 2 - 1) (fun x => 2 * x))
            (pitchBicycle (1 / 10)).dependent_coordinate_ s ∧
          (solve_configuration_constraint_and_set_state
            (pitchEval (fun x => x ^ 2 - 1) (fun x => 2 * x)) (pitchBicycle (1 / 10)) 1 1).1.state_
            = newton_step (pitchEval (fun x => x ^ 2 - 1) (fun x => 2 * x))
                (pitchBicycle (1 / 10)).dependent_coordinate_ s) ∨
        (degenerate (pitchEval (fun x => x ^ 2 - 1) (fun x => 2 * x))
            (pitchBicycle (1 / 10)).dependent_coordinate_ s ∧
          (solve_configuration_constraint_and_set_state
            (pitchEval (fun x => x ^ 2 - 1) (fun x => 2 * x)) (pitchBicycle (1 / 10)) 1 1).1.state_
            = (pitchBicycle (1 / 10)).state_)) := by
  have hnd : ¬ degenerate (pitchEval (fun x => x ^ 2 - 1) (fun x => 2 * x))
      (pitchBicycle (1 / 10)).dependent_coordinate_ (pitchBicycle (1 / 10)).state_ := by
    show ¬ degenerate _ 2 (pitchState (1 / 10))
    rw [pitchEval_degenerate]; norm_num [abs_of_pos]
  have hstop : ¬ ((1 : ℤ) < 1 ∧
      |(pitchEval (fun x => x ^ 2 - 1) (fun x => 2 * x)).f_c (pitchBicycle (1 / 10)).state_|
        > 1) := fun hh => absurd hh.1 (by decide)
  have h : |(solve_configuration_constraint_and_set_state
      (pitchEval (fun x => x ^ 2 - 1) (fun x => 2 * x)) (pitchBicycle (1 / 10)) 1 1).2.2| ≤ 1 := by
    rw [solve_configuration_one_step _ _ _ _ hnd hstop]
    show |(pitchEval (fun x => x ^ 2 - 1) (fun x => 2 * x)).f_c (pitchState (1 / 10))| ≤ 1
    rw [pitchEval_f_c]; norm_num [abs_le]
  exact C1_returned_residual_is_pre_step
    (pitchEval (fun x => x ^ 2 - 1) (fun x => 2 * x)) (pitchBicycle (1 / 10)) 1 1 h

/-! ### C2 -/

/-- C2: whenever the degenerate check fires, after any number `k` of Newton
steps, the state vector after the call equals the state vector before it; in
particular a derivative that is exactly zero aborts on the first pass, with the
state unchanged and no step counted. -/
theorem C2_abort_restores_state (E : Evaluator) (b : Bicycle) (ftol : ℚ) (iter : ℤ) :
    (∀ k, aborts_after E b.dependent_coordinate_ ftol iter b.state_ k →
      (solve_configuration_constraint_and_set_state E b ftol iter).1.state_ = b.state_) ∧
    (E.f_c_dq b.state_ b.dependent_coordinate_ 0 = 0 →
      aborts_after E b.dependent_coordinate_ ftol iter b.state_ 0 ∧
      solve_configuration_constraint_and_set_state E b ftol iter = (b, 0, E.f_c b.state_)) := by
  constructor
  · intro k hk
    rw [solve_configuration_abort E b ftol iter k hk]
  · intro hz
    have hab : aborts_after E b.dependent_coordinate_ ftol iter b.state_ 0 := by
      refine ⟨by simp, by simp, ?_⟩
      simp only [newton_iterate, Function.iterate_zero, id_eq, degenerate, hz, abs_zero]
      norm_num [df_min]
    refine ⟨hab, ?_⟩
    rw [solve_configuration_abort E b ftol iter 0 hab]
    simp [newton_iterate]

/-- C2, witness: an abort on the second pass, after one Newton step, and an
abort on the first pass at a derivative that is exactly zero. -/
theorem C2_abort_restores_state_witness :
    (solve_configuration_constraint_and_set_state
        (pitchEval (fun x => x ^ 2 + 1) (fun x => 2 * x)) (pitchBicycle 1) 1 10).1.state_
      = (pitchBicycle 1).state_ ∧
    solve_configuration_constraint_and_set_state
        (pitchEval (fun x => x ^ 2 + 1) (fun x => 2 * x)) (pitchBicycle 0) 1 10
      = (pitchBicycle 0, 0,
          (pitchEval (fun x => x ^ 2 + 1) (fun x => 2 * x)).f_c (pitchBicycle 0).state_) := by
  have hz : (pitchEval (fun x => x ^ 2 + 1) (fun x => 2 * x)).f_c_dq (pitchBicycle 0).state_
      (pitchBicycle 0).dependent_coordinate_ 0 = 0 := by
    simp [pitchEval, pitchBicycle, pitchState]
  exact ⟨(C2_abort_restores_state _ (pitchBicycle 1) 1 10).1 1 pitchEval_aborts_after_one,
    ((C2_abort_restores_state _ (pitchBicycle 0) 1 10).2 hz).2⟩

/-! ### C3 -/

/-- C3, counterexample: with `f_c = q[2]^2 + 1`, pitch `1`, `ftol = 1` and
`iter = 10` the degenerate check fires on the second pass and the call returns
the iteration count `1`, not `0`. -/
theorem C3_counterexample :
    aborts_after (pitchEval (fun x => x ^ 2 + 1) (fun x => 2 * x))
      (pitchBicycle 1).dependent_coordinate_ 1 10 (pitchBicycle 1).state_ 1 ∧
    (solve_configuration_constraint_and_set_state
        (pitchEval (fun x => x ^ 2 + 1) (fun x => 2 * x)) (pitchBicycle 1) 1 10).2.1 = 1 ∧
    (solve_configuration_constraint_and_set_state
        (pitchEval (fun x => x ^ 2 + 1) (fun x => 2 * x)) (pitchBicycle 1) 1 10).2.1 ≠ 0 := by
  have h := solve_configuration_abort _ (pitchBicycle 1) 1 10 1 pitchEval_aborts_after_one
  rw [h]
  exact ⟨pitchEval_aborts_after_one, by norm_num, by norm_num⟩

/-- C3, amended: when the degenerate check fires after `k` Newton steps, the
returned iteration count is `k`, the number of steps taken (and undone) before
the abort; it is `0` exactly when the check fires on the first pass. -/
theorem C3_abort_count (E : Evaluator) (b : Bicycle) (ftol : ℚ) (iter : ℤ) (k : ℕ)
    (h : aborts_after E b.dependent_coordinate_ ftol iter b.state_ k) :
    (solve_configuration_constraint_and_set_state E b ftol iter).2.1 = (k : ℤ) ∧
    ((solve_configuration_constraint_and_set_state E b ftol iter).2.1 = 0 ↔ k = 0) := by
  rw [solve_configuration_abort E b ftol iter k h]
  exact ⟨rfl, by simp⟩

/-- C3, witness: the abort after one step of the counterexample. -/
theorem C3_abort_count_witness :
    (solve_configuration_constraint_and_set_state
        (pitchEval (fun x => x ^ 2 + 1) (fun x => 2 * x)) (pitchBicycle 1) 1 10).2.1
      = ((1 : ℕ) : ℤ) :=
  (C3_abort_count _ (pitchBicycle 1) 1 10 1 pitchEval_aborts_after_one).1

/-! ### C4 -/

/-- C4: the call changes at most `state_[dependent_coordinate_]`: every other
entry of the state (coordinate or speed) keeps its value, and so do the other
data members. -/
theorem C4_frame (E : Evaluator) (b : Bicycle) (ftol : ℚ) (iter : ℤ) :
    (∀ (r : Fin 20) (c : Fin 1), r ≠ qIdx b.dependent_coordinate_ →
      (solve_configuration_constraint_and_set_state E b ftol iter).1.state_ r c
        = b.state_ r c) ∧
    (solve_configuration_constraint_and_set_state E b ftol iter).1.dependent_coordinate_
      = b.dependent_coordinate_ ∧
    (solve_configuration_constraint_and_set_state E b ftol iter).1.dependent_speeds_
      = b.dependent_speeds_ ∧
    (solve_configuration_constraint_and_set_state E b ftol iter).1.P_u_ = b.P_u_ := by
  refine ⟨?_, rfl, rfl, rfl⟩
  intro r c hr
  obtain ⟨k, ⟨_, hres⟩ | ⟨_, _, _, hres⟩⟩ := solve_configuration_cases E b ftol iter
  · rw [hres]
  · rw [hres]
    exact newton_iterate_ne E _ _ (k + 1) r c hr

/-- C4, witness: the speed `u[0]` (entry 8 of the state) after a call that moves
the pitch. -/
theorem C4_frame_witness :
    (solve_configuration_constraint_and_set_state
        (pitchEval (fun x => x ^ 2 - 1) (fun x => 2 * x)) (pitchBicycle (1 / 10)) 1 10).1.state_ 8 0
      = (pitchBicycle (1 / 10)).state_ 8 0 :=
  (C4_frame (pitchEval (fun x => x ^ 2 - 1) (fun x => 2 * x)) (pitchBicycle (1 / 10)) 1 10).1 8 0
    (by decide)

/-! ### C5 -/

/-- C5: if the degenerate check does not fire at any state the run reaches
(`x_j` is reached when the loop condition held after each of the steps
`1, ..., j`), then the call returns the count `k`, the least `k ≥ 1` with
`k ≥ iter` or `|f_k| ≤ ftol`, leaves the state `x_k` (exactly `k` Newton steps
applied) and returns the residual `f_k = f_c(x_{k-1})` evaluated before the last
step.  For `iter ≥ 1` the count is at most `iter`, and a count below `iter`
implies `|f_k| ≤ ftol`. -/
theorem C5_newton_count (E : Evaluator) (b : Bicycle) (ftol : ℚ) (iter : ℤ)
    (hnd : ∀ j : ℕ,
      (∀ i, 1 ≤ i → i ≤ j → ¬ stops_at E b.dependent_coordinate_ ftol iter b.state_ i) →
      ¬ degenerate E b.dependent_coordinate_
        (newton_iterate E b.dependent_coordinate_ b.state_ j)) :
    ∃ k : ℕ, 1 ≤ k ∧
      stops_at E b.dependent_coordinate_ ftol iter b.state_ k ∧
      (∀ j, 1 ≤ j → j < k → ¬ stops_at E b.dependent_coordinate_ ftol iter b.state_ j) ∧
      solve_configuration_constraint_and_set_state E b ftol iter
        = ({ b with state_ := newton_iterate E b.dependent_coordinate_ b.state_ k }, (k : ℤ),
            residual_before E b.dependent_coordinate_ b.state_ k) ∧
      (1 ≤ iter → (k : ℤ) ≤ iter) ∧
      ((k : ℤ) < iter →
        |(solve_configuration_constraint_and_set_state E b ftol iter).2.2| ≤ ftol) := by
  have hcont_not_stop : ∀ k0 : ℕ,
      (∀ j, j < k0 → ((j : ℤ) + 1 < iter ∧
        |E.f_c (newton_iterate E b.dependent_coordinate_ b.state_ j)| > ftol)) →
      ∀ i, 1 ≤ i → i ≤ k0 → ¬ stops_at E b.dependent_coordinate_ ftol iter b.state_ i := by
    intro k0 hcont i hi1 hik
    obtain ⟨i', rfl⟩ : ∃ i', i = i' + 1 := ⟨i - 1, by omega⟩
    have hc := hcont i' (by omega)
    simp only [stops_at, residual_before, Nat.add_sub_cancel, not_or, not_le]
    push_cast
    exact ⟨hc.1, hc.2⟩
  obtain ⟨k0, ⟨hab, _⟩ | ⟨_, hcont, hstop, hres⟩⟩ := solve_configuration_cases E b ftol iter
  · exact absurd hab.2.2 (hnd k0 (hcont_not_stop k0 hab.2.1))
  · have hstops : stops_at E b.dependent_coordinate_ ftol iter b.state_ (k0 + 1) := by
      simp only [stops_at, residual_before, Nat.add_sub_cancel]
      push_cast
      by_cases h1 : (k0 : ℤ) + 1 < iter
      · right
        by_contra h2
        exact hstop ⟨h1, not_le.mp h2⟩
      · left
        exact not_lt.mp h1
    refine ⟨k0 + 1, by omega, hstops, ?_, ?_, ?_, ?_⟩
    · intro j hj1 hjk
      exact hcont_not_stop k0 hcont j hj1 (by omega)
    · rw [hres]
      simp only [residual_before, Nat.add_sub_cancel]
      push_cast
      rfl
    · intro hiter
      rcases Nat.eq_zero_or_pos k0 with rfl | hpos
      · simpa using hiter
      · have hc := (hcont (k0 - 1) (by omega)).1
        have hk : ((k0 - 1 : ℕ) : ℤ) = (k0 : ℤ) - 1 := by omega
        push_cast
        rw [hk] at hc
        linarith
    · intro hlt
      rw [hres]
      rcases hstops with h1 | h2
      · exact absurd hlt (not_lt.mpr h1)
      · simpa [residual_before] using h2

/-- C5, witness: the linear constraint `f_c = q[2] - 1` with derivative `1`,
from pitch `3` with `ftol = 1/2` and `iter = 10`. -/
theorem C5_newton_count_witness :
    ∃ k : ℕ, 1 ≤ k ∧
      stops_at (pitchEval (fun x => x - 1) (fun _ => 1)) (pitchBicycle 3).dependent_coordinate_
        (1 / 2) 10 (pitchBicycle 3).state_ k ∧
      (∀ j, 1 ≤ j → j < k →
        ¬ stops_at (pitchEval (fun x => x - 1) (fun _ => 1))
          (pitchBicycle 3).dependent_coordinate_ (1 / 2) 10 (pitchBicycle 3).state_ j) ∧
      solve_configuration_constraint_and_set_state
          (pitchEval (fun x => x - 1) (fun _ => 1)) (pitchBicycle 3) (1 / 2) 10
        = ({ pitchBicycle 3 with
              state_ := newton_iterate (pitchEval (fun x => x - 1) (fun _ => 1))
                (pitchBicycle 3).dependent_coordinate_ (pitchBicycle 3).state_ k },
            (k : ℤ),
            residual_before (pitchEval (fun x => x - 1) (fun _ => 1))
              (pitchBicycle 3).dependent_coordinate_ (pitchBicycle 3).state_ k) ∧
      (1 ≤ (10 : ℤ) → (k : ℤ) ≤ 10) ∧
      ((k : ℤ) < 10 →
        |(solve_configuration_constraint_and_set_state
          (pitchEval (fun x => x - 1) (fun _ => 1)) (pitchBicycle 3) (1 / 2) 10).2.2| ≤ 1 / 2) :=
  C5_newton_count (pitchEval (fun x => x - 1) (fun _ => 1)) (pitchBicycle 3) (1 / 2) 10
    (fun j _ => pitchEval_unit_slope_not_degenerate (fun x => x - 1) 3 j)

/-! ### C6 -/

/-- C6, counterexample: with `f_c = (q[2]^2 - 1)/100`, pitch `2`, `ftol = 3/100`
and `iter = 10`, the first call returns after one step with `|f| = 3/100 ≤ ftol`
and leaves pitch `5/4`; the second call returns after one step with
`|f| = 9/1600 ≤ ftol` and leaves pitch `41/40`.  The second call has moved the
dependent coordinate by `9/40`, which is not below `ftol = 3/100`. -/
theorem C6_counterexample :
    solve_configuration_constraint_and_set_state
        (pitchEval (fun x => (x ^ 2 - 1) / 100) (fun x => x / 50)) (pitchBicycle 2) (3 / 100) 10
      = (pitchBicycle (5 / 4), 1, 3 / 100) ∧
    solve_configuration_constraint_and_set_state
        (pitchEval (fun x => (x ^ 2 - 1) / 100) (fun x => x / 50))
        (solve_configuration_constraint_and_set_state
          (pitchEval (fun x => (x ^ 2 - 1) / 100) (fun x => x / 50)) (pitchBicycle 2)
          (3 / 100) 10).1 (3 / 100) 10
      = (pitchBicycle (41 / 40), 1, 9 / 1600) ∧
    ¬ |(solve_configuration_constraint_and_set_state
          (pitchEval (fun x => (x ^ 2 - 1) / 100) (fun x => x / 50))
          (solve_configuration_constraint_and_set_state
            (pitchEval (fun x => (x ^ 2 - 1) / 100) (fun x => x / 50)) (pitchBicycle 2)
            (3 / 100) 10).1 (3 / 100) 10).1.state_ 2 0
        - (solve_configuration_constraint_and_set_state
            (pitchEval (fun x => (x ^ 2 - 1) / 100) (fun x => x / 50)) (pitchBicycle 2)
            (3 / 100) 10).1.state_ 2 0| < 3 / 100 := by
  have h1 : solve_configuration_constraint_and_set_state
        (pitchEval (fun x => (x ^ 2 - 1) / 100) (fun x => x / 50)) (pitchBicycle 2) (3 / 100) 10
      = (pitchBicycle (5 / 4), 1, 3 / 100) := by
    rw [solve_pitch_one_step _ _ _ _ _ (by norm_num [abs_of_pos]) (by norm_num [abs_of_pos])]
    norm_num
  have h2 : solve_configuration_constraint_and_set_state
        (pitchEval (fun x => (x ^ 2 - 1) / 100) (fun x => x / 50)) (pitchBicycle (5 / 4))
        (3 / 100) 10
      = (pitchBicycle (41 / 40), 1, 9 / 1600) := by
    rw [solve_pitch_one_step _ _ _ _ _ (by norm_num [abs_of_pos])
      (by norm_num [abs_of_pos])]
    norm_num
  rw [h1]
  simp only [h2]
  refine ⟨trivial, trivial, ?_⟩
  simp only [pitchBicycle, pitchState]
  norm_num [abs_of_neg]

/-- C6, amended: if at the state left by the first call the degenerate check
does not fire and the constraint satisfies `|f_c| ≤ ftol`, the second call with
the same tolerance takes exactly one Newton step: it changes the dependent
coordinate by exactly `-f_c / df_c` evaluated at that state, so the change times
the derivative is bounded by the tolerance, `|change| * |df_c| ≤ ftol`. -/
theorem C6_second_call_single_step (E : Evaluator) (b : Bicycle) (ftol : ℚ) (iter : ℤ)
    (hnd : ¬ degenerate E b.dependent_coordinate_
      (solve_configuration_constraint_and_set_state E b ftol iter).1.state_)
    (hconv : |E.f_c (solve_configuration_constraint_and_set_state E b ftol iter).1.state_|
      ≤ ftol) :
    (solve_configuration_constraint_and_set_state E
        (solve_configuration_constraint_and_set_state E b ftol iter).1 ftol iter).2
      = (1, E.f_c (solve_configuration_constraint_and_set_state E b ftol iter).1.state_) ∧
    (solve_configuration_constraint_and_set_state E
        (solve_configuration_constraint_and_set_state E b ftol iter).1 ftol iter).1.state_
          (qIdx b.dependent_coordinate_) 0
      - (solve_configuration_constraint_and_set_state E b ftol iter).1.state_
          (qIdx b.dependent_coordinate_) 0
      = -(E.f_c (solve_configuration_constraint_and_set_state E b ftol iter).1.state_
          / E.f_c_dq (solve_configuration_constraint_and_set_state E b ftol iter).1.state_
              b.dependent_coordinate_ 0) ∧
    |(solve_configuration_constraint_and_set_state E
        (solve_configuration_constraint_and_set_state E b ftol iter).1 ftol iter).1.state_
          (qIdx b.dependent_coordinate_) 0
      - (solve_configuration_constraint_and_set_state E b ftol iter).1.state_
          (qIdx b.dependent_coordinate_) 0|
      * |E.f_c_dq (solve_configuration_constraint_and_set_state E b ftol iter).1.state_
          b.dependent_coordinate_ 0| ≤ ftol := by
  have hdep : (solve_configuration_constraint_and_set_state E b ftol iter).1.dependent_coordinate_
      = b.dependent_coordinate_ := rfl
  generalize (solve_configuration_constraint_and_set_state E b ftol iter).1 = b1 at *
  rw [← hdep] at hnd ⊢
  have hstop : ¬ (1 < iter ∧ |E.f_c b1.state_| > ftol) := fun hh =>
    absurd hconv (not_le.mpr hh.2)
  rw [solve_configuration_one_step E b1 ftol iter hnd hstop]
  have hdf : E.f_c_dq b1.state_ b1.dependent_coordinate_ 0 ≠ 0 := by
    intro hz
    apply hnd
    simp only [degenerate, hz, abs_zero]
    norm_num [df_min]
  have hchange : newton_step E b1.dependent_coordinate_ b1.state_ (qIdx b1.dependent_coordinate_) 0
      - b1.state_ (qIdx b1.dependent_coordinate_) 0
      = -(E.f_c b1.state_ / E.f_c_dq b1.state_ b1.dependent_coordinate_ 0) := by
    rw [newton_step, setEntry_self]; ring
  refine ⟨rfl, hchange, ?_⟩
  show |newton_step E b1.dependent_coordinate_ b1.state_ (qIdx b1.dependent_coordinate_) 0
      - b1.state_ (qIdx b1.dependent_coordinate_) 0| * _ ≤ ftol
  rw [hchange, abs_neg, abs_div, div_mul_cancel₀ _ (abs_ne_zero.mpr hdf)]
  exact hconv

/-- C6, witness: the two calls of the counterexample. -/
theorem C6_second_call_single_step_witness :
    (solve_configuration_constraint_and_set_state
        (pitchEval (fun x => (x ^ 2 - 1) / 100) (fun x => x / 50))
        (solve_configuration_constraint_and_set_state
          (pitchEval (fun x => (x ^ 2 - 1) / 100) (fun x => x / 50)) (pitchBicycle 2)
          (3 / 100) 10).1 (3 / 100) 10).2
      = (1, (pitchEval (fun x => (x ^ 2 - 1) / 100) (fun x => x / 50)).f_c
          (solve_configuration_constraint_and_set_state
            (pitchEval (fun x => (x ^ 2 - 1) / 100) (fun x => x / 50)) (pitchBicycle 2)
            (3 / 100) 10).1.state_) := by
  have hnd : ¬ degenerate (pitchEval (fun x => (x ^ 2 - 1) / 100) (fun x => x / 50))
      (pitchBicycle 2).dependent_coordinate_
      (solve_configuration_constraint_and_set_state
        (pitchEval (fun x => (x ^ 2 - 1) / 100) (fun x => x / 50)) (pitchBicycle 2)
        (3 / 100) 10).1.state_ := by
    rw [pitch_scaled_quadratic_first_call]
    show ¬ degenerate _ 2 (pitchState (5 / 4))
    rw [pitchEval_degenerate]; norm_num [abs_of_pos]
  have hconv : |(pitchEval (fun x => (x ^ 2 - 1) / 100) (fun x => x / 50)).f_c
      (solve_configuration_constraint_and_set_state
        (pitchEval (fun x => (x ^ 2 - 1) / 100) (fun x => x / 50)) (pitchBicycle 2)
        (3 / 100) 10).1.state_| ≤ 3 / 100 := by
    rw [pitch_scaled_quadratic_first_call]
    show |(pitchEval _ _).f_c (pitchState (5 / 4))| ≤ 3 / 100
    rw [pitchEval_f_c]; norm_num [abs_of_pos]
  exact (C6_second_call_single_step
    (pitchEval (fun x => (x ^ 2 - 1) / 100) (fun x => x / 50)) (pitchBicycle 2) (3 / 100) 10
    hnd hconv).1

/-! ## Selection of the dependent coordinate -/

/-- Invariant of the loop of `std::max_element` on the range starting at `a`:
if `largest` is the first position of a largest element among the positions
below `first`, the result is the first position of a largest element among all
positions below `first + r`. -/
theorem max_element_loop_spec (data : ℕ → ℚ) (a : ℕ) (r : ℕ) : ∀ (l f : ℕ),
    a ≤ l → l < f →
    (∀ j, a ≤ j → j < f → data j ≤ data l) →
    (∀ j, a ≤ j → j < l → data j < data l) →
    a ≤ max_element_loop data l f r ∧ max_element_loop data l f r < f + r ∧
    (∀ j, a ≤ j → j < f + r → data j ≤ data (max_element_loop data l f r)) ∧
    (∀ j, a ≤ j → j < max_element_loop data l f r →
      data j < data (max_element_loop data l f r)) := by
  induction r with
  | zero =>
    intro l f hal hlf hmax hfirst
    exact ⟨hal, by simpa [max_element_loop] using hlf, by simpa [max_element_loop] using hmax,
      by simpa [max_element_loop] using hfirst⟩
  | succ r ih =>
    intro l f hal hlf hmax hfirst
    have hrw : f + (r + 1) = (f + 1) + r := by omega
    rw [max_element_loop, hrw]
    by_cases hlt : data l < data f
    · rw [if_pos hlt]
      apply ih f (f + 1) (by omega) (by omega)
      · intro j haj hj
        rcases Nat.lt_or_eq_of_le (Nat.lt_succ_iff.mp hj) with h | h
        · exact le_of_lt (lt_of_le_of_lt (hmax j haj h) hlt)
        · rw [h]
      · intro j haj hj
        exact lt_of_le_of_lt (hmax j haj hj) hlt
    · rw [if_neg hlt]
      apply ih l (f + 1) hal (by omega)
      · intro j haj hj
        rcases Nat.lt_or_eq_of_le (Nat.lt_succ_iff.mp hj) with h | h
        · exact hmax j haj h
        · rw [h]; exact not_lt.mp hlt
      · exact hfirst

theorem data_cwiseAbs {k : ℕ} (v : Vector k) (j : Fin k) :
    data (cwiseAbs v) j.val = |v j 0| := by
  simp [data, cwiseAbs]

/-! ### C7 -/

/-- C7: `best_dependent_coordinate` returns an index `i < n` at which
`|df_c/dq|` is largest, and the lowest such index: every entry has magnitude at
most that of entry `i`, and every entry before `i` has a strictly smaller
magnitude.  The function is `const`: it is a pure function of the object and
returns no new state. -/
theorem C7_best_dependent_coordinate (E : Evaluator) (b : Bicycle) :
    ∃ h : best_dependent_coordinate E b < n,
      (∀ j : Fin n, |E.f_c_dq b.state_ j 0|
        ≤ |E.f_c_dq b.state_ ⟨best_dependent_coordinate E b, h⟩ 0|) ∧
      (∀ j : Fin n, j.val < best_dependent_coordinate E b →
        |E.f_c_dq b.state_ j 0|
          < |E.f_c_dq b.state_ ⟨best_dependent_coordinate E b, h⟩ 0|) := by
  have hspec := max_element_loop_spec (data (cwiseAbs (E.f_c_dq b.state_))) 0 7 0 1
    le_rfl Nat.zero_lt_one
    (by intro j _ hj; obtain rfl : j = 0 := by omega
        exact le_rfl)
    (by intro j _ hj; omega)
  have hbest : best_dependent_coordinate E b
      = max_element_loop (data (cwiseAbs (E.f_c_dq b.state_))) 0 1 7 := by
    simp [best_dependent_coordinate, max_element]
  rw [← hbest] at hspec
  obtain ⟨_, hlt, hmax, hfirst⟩ := hspec
  have hn : best_dependent_coordinate E b < n := hlt
  have hb : data (cwiseAbs (E.f_c_dq b.state_)) (best_dependent_coordinate E b)
      = |E.f_c_dq b.state_ ⟨best_dependent_coordinate E b, hn⟩ 0| :=
    data_cwiseAbs (E.f_c_dq b.state_) ⟨best_dependent_coordinate E b, hn⟩
  refine ⟨hn, ?_, ?_⟩
  · intro j
    have := hmax j.val (Nat.zero_le _) j.isLt
    rwa [data_cwiseAbs, hb] at this
  · intro j hj
    have := hfirst j.val (Nat.zero_le _) hj
    rwa [data_cwiseAbs, hb] at this

/-! ## Selection of the dependent speeds -/

theorem foldl_best_mem (xs : List (ℚ × ℕ)) : ∀ x : ℚ × ℕ,
    xs.foldl (fun best y => if pair_lt best y then y else best) x ∈ x :: xs := by
  induction xs with
  | nil => intro x; simp
  | cons y ys ih =>
    intro x
    rw [List.foldl_cons]
    by_cases h : pair_lt x y
    · rw [if_pos h]
      exact List.mem_cons_of_mem _ (ih y)
    · rw [if_neg h]
      rcases List.mem_cons.mp (ih x) with h1 | h1
      · rw [h1]; exact List.mem_cons_self _ _
      · exact List.mem_cons_of_mem _ (List.mem_cons_of_mem _ h1)

/-- The top of a non-empty queue is one of its elements. -/
theorem pq_top_mem (q : List (ℚ × ℕ)) (h : q ≠ []) : pq_top q ∈ q := by
  cases q with
  | nil => exact absurd rfl h
  | cons x xs => exact foldl_best_mem xs x

/-- Popping `k` times from a queue whose elements carry pairwise distinct
indices, none of them selected yet, selects exactly `k` new indices, all taken
from the queue. -/
theorem pop_indices_spec (k : ℕ) : ∀ (q : List (ℚ × ℕ)) (indices : Finset ℕ),
    (q.map Prod.snd).Nodup → k ≤ q.length → (∀ x ∈ q, x.2 ∉ indices) →
    (pop_indices k q indices).card = indices.card + k ∧
    ∀ i ∈ pop_indices k q indices, i ∈ indices ∨ i ∈ q.map Prod.snd := by
  induction k with
  | zero =>
    intro q indices _ _ _
    exact ⟨by simp [pop_indices], fun i hi => Or.inl (by simpa [pop_indices] using hi)⟩
  | succ k ih =>
    intro q indices hnodup hlen hfresh
    have hne : q ≠ [] := by
      intro h; rw [h] at hlen; simp at hlen
    have htop : pq_top q ∈ q := pq_top_mem q hne
    have hq : q.Nodup := List.Nodup.of_map _ hnodup
    have hnodup' : ((pq_pop q).map Prod.snd).Nodup :=
      hnodup.sublist ((List.erase_sublist _ _).map _)
    have hlen' : k ≤ (pq_pop q).length := by
      rw [pq_pop, List.length_erase_of_mem htop]; omega
    have hfresh' : ∀ x ∈ pq_pop q, x.2 ∉ insert (pq_top q).2 indices := by
      intro x hx hmem
      have hxq : x ∈ q := List.mem_of_mem_erase hx
      rcases Finset.mem_insert.mp hmem with h1 | h1
      · have hxt : x = pq_top q := List.inj_on_of_nodup_map hnodup hxq htop h1
        rw [pq_pop, hxt] at hx
        exact ((List.Nodup.mem_erase_iff hq).mp hx).1 rfl
      · exact hfresh x hxq h1
    obtain ⟨hcard, hmem⟩ := ih (pq_pop q) (insert (pq_top q).2 indices) hnodup' hlen' hfresh'
    rw [pop_indices]
    constructor
    · rw [hcard, Finset.card_insert_of_not_mem (hfresh _ htop)]; omega
    · intro i hi
      rcases hmem i hi with h1 | h1
      · rcases Finset.mem_insert.mp h1 with h2 | h2
        · right; rw [h2]; exact List.mem_map_of_mem _ htop
        · left; exact h2
      · right
        exact ((List.erase_sublist _ _).map _).subset h1

theorem push_scores_eq (d : Fin 6 → ℚ) :
    push_scores d = [(d 5, 5), (d 4, 4), (d 3, 3), (d 2, 2), (d 1, 1), (d 0, 0)] := by
  rfl

theorem select_speeds_spec (d : Fin 6 → ℚ) :
    (select_speeds d).card = m ∧ ∀ i ∈ select_speeds d, i < 6 := by
  have h := pop_indices_spec m (push_scores d) ∅
    (by rw [push_scores_eq]; simp) (by rw [push_scores_eq]; simp [m]) (by simp)
  refine ⟨by simpa [select_speeds] using h.1, ?_⟩
  intro i hi
  rcases h.2 i hi with h1 | h1
  · simp at h1
  · rw [push_scores_eq] at h1
    simp at h1
    omega

/-! ### C8 -/

/-- C8: whatever the six scores are (whatever matrix the decomposition returns,
rank deficient or not), `best_dependent_speeds` returns a set of exactly `m = 3`
indices, each of them in `{0, ..., 5}`. -/
theorem C8_best_dependent_speeds
    (matrixV : Matrix (Fin m) (Fin 6) ℚ → Matrix (Fin 6) (Fin m) ℚ) (E : Evaluator)
    (b : Bicycle) :
    (best_dependent_speeds matrixV E b).card = m ∧
    ∀ i ∈ best_dependent_speeds matrixV E b, i < 6 :=
  select_speeds_spec _

/-! ## The velocity constraint solver -/

theorem uIdx_injective : Function.Injective uIdx := by
  intro a c h
  have h1 : a.val + n = c.val + n := congrArg Fin.val h
  exact Fin.ext (by omega)

theorem uIdx_ne_qIdx (j : Fin o) (i : Fin n) : qIdx i ≠ uIdx j := by
  intro h
  have h1 : i.val = j.val + n := congrArg Fin.val h
  have := i.isLt
  omega

/-- The write-back loop started at counter `i` on a list of distinct speeds that
fits into the rest of `u_d`: it succeeds, entry `k` of the list receives
`u_d[i + k]`, and every position that is not a listed speed keeps its value. -/
theorem write_dependent_spec (ud : Vector m) : ∀ (ds : List (Fin o)) (i : ℕ) (s : State),
    ds.Nodup → i + ds.length ≤ m →
    ∃ s', write_dependent ud ds i s = some s' ∧
      (∀ (k : ℕ) (hk : k < ds.length), s' (uIdx ds[k]) 0 = data ud (i + k)) ∧
      (∀ r, (∀ d ∈ ds, r ≠ uIdx d) → s' r 0 = s r 0) := by
  intro ds
  induction ds with
  | nil =>
    intro i s _ _
    exact ⟨s, rfl, fun k hk => absurd hk (by simp), fun r _ => rfl⟩
  | cons d ds ih =>
    intro i s hnodup hlen
    have hi : i < m := by
      simp only [List.length_cons] at hlen; omega
    obtain ⟨hd, hds⟩ := List.nodup_cons.mp hnodup
    obtain ⟨s', hs', hval, hframe⟩ := ih (i + 1)
      (setEntry s (uIdx d) (ud ⟨i, hi⟩ 0)) hds
      (by simp only [List.length_cons] at hlen; omega)
    refine ⟨s', by rw [write_dependent, dif_pos hi]; exact hs', ?_, ?_⟩
    · intro k hk
      cases k with
      | zero =>
        have hne : ∀ d' ∈ ds, uIdx d ≠ uIdx d' := by
          intro d' hd' heq
          exact hd (by rw [uIdx_injective heq]; exact hd')
        simp only [List.getElem_cons_zero, add_zero]
        rw [hframe (uIdx d) hne, setEntry_self]
        simp [data, hi]
      | succ k =>
        simp only [List.getElem_cons_succ]
        rw [hval k (by simpa using hk)]
        congr 1
        omega
    · intro r hr
      rw [hframe r (fun d' hd' => hr d' (List.mem_cons_of_mem _ hd'))]
      exact setEntry_ne _ _ _ _ _ (hr d (List.mem_cons_self _ _))

/-- With exactly `m` dependent speeds the call succeeds; the speed with the
`k`-th smallest dependent index receives `u_d[k]`, everything else is kept. -/
theorem solve_velocity_spec (qr : Solver) (E : Evaluator) (b : Bicycle)
    (hcard : b.dependent_speeds_.card = m) :
    ∃ s', solve_velocity_constraints_and_set_state qr E b
        = some ({ b with state_ := s' }, velocity_residual qr E b) ∧
      (∀ k : Fin m, s' (uIdx (b.dependent_speeds_.orderEmbOfFin hcard k)) 0
        = u_d qr E b k 0) ∧
      (∀ r, (∀ d ∈ b.dependent_speeds_, r ≠ uIdx d) → s' r 0 = b.state_ r 0) := by
  have hlen : (b.dependent_speeds_.sort (· ≤ ·)).length = m := by
    rw [Finset.length_sort, hcard]
  obtain ⟨s', hs', hval, hframe⟩ := write_dependent_spec (u_d qr E b)
    (b.dependent_speeds_.sort (· ≤ ·)) 0 b.state_ (Finset.sort_nodup _ _)
    (by rw [hlen]; omega)
  refine ⟨s', by rw [solve_velocity_constraints_and_set_state, hs'], ?_, ?_⟩
  · intro k
    rw [Finset.orderEmbOfFin_apply]
    have := hval k.val (by rw [hlen]; exact k.isLt)
    simp only [Fin.getElem_fin]
    rw [this]
    simp [data]
  · intro r hr
    exact hframe r (fun d hd => hr d ((Finset.mem_sort _).mp hd))

/-- Exactness of the solve makes the returned expression vanish. -/
theorem velocity_residual_eq_zero (qr : Solver) (E : Evaluator) (b : Bicycle)
    (hexact : ExactSolve qr) (hinv : IsUnit (B_d E b).det) :
    velocity_residual qr E b = 0 := by
  rw [velocity_residual, u_d, Matrix.mul_neg, hexact 1 (B_d E b) _ hinv]
  exact neg_add_cancel _

theorem cramer_solve_exact : ExactSolve cramer_solve := by
  intro k A rhs hA
  have hdet : A.det ≠ 0 := hA.ne_zero
  rw [cramer_solve, Matrix.mul_smul, ← Matrix.mul_assoc, Matrix.mul_adjugate,
    Matrix.smul_mul, Matrix.one_mul, smul_smul, inv_mul_cancel₀ hdet, one_smul]

theorem rolling_permuted_B :
    permuted_B rollingEval rollingBicycle = rollingEval.f_v_du rollingBicycle.state_ := by
  simp [permuted_B, rollingBicycle]

theorem rolling_B_d : B_d rollingEval rollingBicycle = 1 := by
  ext r c
  rw [B_d, block, rolling_permuted_B]
  fin_cases r <;> fin_cases c <;> simp [rollingEval, o, m] <;>
    first | rfl | (intro h; exact absurd rfl h)

/-- If the leading `o - m` columns of `P_u_` vanish in the rows of the dependent
speeds, `u_i` does not read the dependent speeds. -/
theorem u_i_congr (b b2 : Bicycle) (hPeq : b2.P_u_ = b.P_u_)
    (hP : ∀ d ∈ b.dependent_speeds_, ∀ j : Fin o, j.val < o - m → b.P_u_ d j = 0)
    (hagree : ∀ r c, (∀ d ∈ b.dependent_speeds_, r ≠ uIdx d) → b2.state_ r c = b.state_ r c) :
    u_i b2 = u_i b := by
  funext j c
  simp only [u_i, block, Matrix.mul_apply, Matrix.transpose_apply, speeds, hPeq]
  apply Finset.sum_congr rfl
  intro x _
  by_cases hx : x ∈ b.dependent_speeds_
  · rw [hP x hx _ (by simp)]
    simp
  · congr 1
    apply hagree
    intro d hd heq
    apply hx
    have h1 : n + x.val = d.val + n := congrArg Fin.val heq
    have h2 : x = d := Fin.ext (by omega)
    rw [h2]; exact hd

theorem u_d_congr (qr : Solver) (E : Evaluator) (b b2 : Bicycle) (hPeq : b2.P_u_ = b.P_u_)
    (hB : E.f_v_du b2.state_ = E.f_v_du b.state_) (hu : u_i b2 = u_i b) :
    u_d qr E b2 = u_d qr E b := by
  simp only [u_d, B_d, B_i, permuted_B, hPeq, hB, hu]

/-! ### C9 -/

/-- C9: if the trailing block `B_d` of `B * P_u_` is invertible and the solve is
exact, the residual `B_d * u_d + B_i * u_i` that the call returns is the zero
vector of length `m`: each entry is below every positive epsilon in absolute
value.  The call returns it whenever it returns, and it does return when there
are exactly `m` dependent speeds. -/
theorem C9_velocity_residual_zero (qr : Solver) (E : Evaluator) (b : Bicycle)
    (hexact : ExactSolve qr) (hinv : IsUnit (B_d E b).det) :
    velocity_residual qr E b = 0 ∧
    (∀ ε : ℚ, 0 < ε → ∀ i : Fin m, |velocity_residual qr E b i 0| < ε) ∧
    (∀ r, solve_velocity_constraints_and_set_state qr E b = some r → r.2 = 0) ∧
    (b.dependent_speeds_.card = m →
      ∃ b', solve_velocity_constraints_and_set_state qr E b = some (b', 0)) := by
  have hz := velocity_residual_eq_zero qr E b hexact hinv
  refine ⟨hz, ?_, ?_, ?_⟩
  · intro ε hε i
    rw [hz]
    simpa using hε
  · intro r hr
    rw [solve_velocity_constraints_and_set_state] at hr
    split at hr
    · exact absurd hr (by simp)
    · rw [← Option.some.inj hr]
      exact hz
  · intro hcard
    obtain ⟨s', hs', _⟩ := solve_velocity_spec qr E b hcard
    exact ⟨_, by rw [hs', hz]⟩

/-- C9, witness: Cramer's rule as the exact solve, on a constraint matrix whose
trailing block is the identity. -/
theorem C9_velocity_residual_zero_witness :
    velocity_residual cramer_solve rollingEval rollingBicycle = 0 :=
  (C9_velocity_residual_zero cramer_solve rollingEval rollingBicycle cramer_solve_exact
    (by rw [rolling_B_d, Matrix.det_one]; exact isUnit_one)).1

/-! ### C10 -/

/-- C10: with exactly `m` dependent speeds the call succeeds and, with
`d_0 < ... < d_{m-1}` the dependent speed indices in ascending order,
`state_[n + d_k] = u_d[k]`; every coordinate and every speed that is not
dependent is unchanged.  The computed `u_d` does not depend on the pre-call
values of the dependent speeds, provided the two parts of the object that the
function only reads behave as the data model says: `f_v_du` does not read the
dependent speeds, and the leading `o - m` columns of `P_u_` (the rows of
`P_u_.transpose()` that form `u_i`) vanish in the rows of the dependent
speeds. -/
theorem C10_velocity_write_back (qr : Solver) (E : Evaluator) (b : Bicycle)
    (hcard : b.dependent_speeds_.card = m) :
    ∃ s', solve_velocity_constraints_and_set_state qr E b
        = some ({ b with state_ := s' }, velocity_residual qr E b) ∧
      (∀ k : Fin m, s' (uIdx (b.dependent_speeds_.orderEmbOfFin hcard k)) 0
        = u_d qr E b k 0) ∧
      (∀ i : Fin n, s' (qIdx i) 0 = b.state_ (qIdx i) 0) ∧
      (∀ j : Fin o, j ∉ b.dependent_speeds_ → s' (uIdx j) 0 = b.state_ (uIdx j) 0) ∧
      ((∀ s₁ s₂ : State,
          (∀ r c, (∀ d ∈ b.dependent_speeds_, r ≠ uIdx d) → s₁ r c = s₂ r c) →
          E.f_v_du s₁ = E.f_v_du s₂) →
        (∀ d ∈ b.dependent_speeds_, ∀ j : Fin o, j.val < o - m → b.P_u_ d j = 0) →
        ∀ b2 : Bicycle, b2.P_u_ = b.P_u_ →
          (∀ r c, (∀ d ∈ b.dependent_speeds_, r ≠ uIdx d) → b2.state_ r c = b.state_ r c) →
          u_d qr E b2 = u_d qr E b) := by
  obtain ⟨s', hs', hval, hframe⟩ := solve_velocity_spec qr E b hcard
  refine ⟨s', hs', hval, ?_, ?_, ?_⟩
  · intro i
    exact hframe _ (fun d _ => uIdx_ne_qIdx d i)
  · intro j hj
    apply hframe
    intro d hd heq
    exact hj (by rw [uIdx_injective heq]; exact hd)
  · intro hB hP b2 hPeq hagree
    exact u_d_congr qr E b b2 hPeq (hB _ _ hagree) (u_i_congr b b2 hPeq hP hagree)

theorem rolling_card : rollingBicycle.dependent_speeds_.card = m := by
  decide

/-- C10, witness: on the example the call succeeds and keeps the coordinates,
and overwriting the dependent speed `u[9]` beforehand does not change `u_d`. -/
theorem C10_velocity_write_back_witness :
    (∃ s', solve_velocity_constraints_and_set_state cramer_solve rollingEval rollingBicycle
        = some ({ rollingBicycle with state_ := s' },
            velocity_residual cramer_solve rollingEval rollingBicycle) ∧
      (∀ i : Fin n, s' (qIdx i) 0 = rollingBicycle.state_ (qIdx i) 0)) ∧
    u_d cramer_solve rollingEval
        { rollingBicycle with state_ := setEntry rollingBicycle.state_ (uIdx 9) 100 }
      = u_d cramer_solve rollingEval rollingBicycle := by
  obtain ⟨s', hs', _, hq, _, hindep⟩ :=
    C10_velocity_write_back cramer_solve rollingEval rollingBicycle rolling_card
  refine ⟨⟨s', hs', hq⟩, ?_⟩
  apply hindep
  · intro s₁ s₂ _
    rfl
  · intro d hd j hj
    have hne : d ≠ j := by
      intro h
      rw [h] at hd
      have hmem : j = 9 ∨ j = 10 ∨ j = 11 := by
        simpa [rollingBicycle] using hd
      have h9 : j.val < 9 := hj
      rcases hmem with h | h | h <;> rw [h] at h9 <;> exact absurd h9 (by decide)
    simp [rollingBicycle, Matrix.one_apply, hne]
  · rfl
  · intro r c hr
    exact setEntry_ne _ _ _ _ _ (hr 9 (by simp [rollingBicycle]))

/-! ## The constraint Jacobian reducer -/

/-- An invertible matrix can be cancelled on the left. -/
theorem mul_left_cancel_of_isUnit_det {k : ℕ} (A : Matrix (Fin m) (Fin m) ℚ)
    (X Y : Matrix (Fin m) (Fin k) ℚ) (hA : IsUnit A.det) (h : A * X = A * Y) : X = Y := by
  have hX : A⁻¹ * (A * X) = X := by
    rw [← Matrix.mul_assoc, Matrix.nonsing_inv_mul A hA, Matrix.one_mul]
  have hY : A⁻¹ * (A * Y) = Y := by
    rw [← Matrix.mul_assoc, Matrix.nonsing_inv_mul A hA, Matrix.one_mul]
  rw [← hX, ← hY, h]

/-! ### C11 -/

/-- C11: if the trailing block `B_d` of `B * P_u_` is invertible and the solve is
exact, the `m x (o - m)` matrix `R` returned by `Bd_inverse_Bi` satisfies
`B_d * R = -B_i`, with `B_i` the leading `m x (o - m)` block of `B * P_u_`. -/
theorem C11_Bd_inverse_Bi (qr : Solver) (E : Evaluator) (b : Bicycle)
    (hexact : ExactSolve qr) (hinv : IsUnit (B_d E b).det) :
    B_d E b * Bd_inverse_Bi qr E b = -(B_i E b) := by
  rw [Bd_inverse_Bi]
  exact hexact (o - m) (B_d E b) _ hinv

/-- C11, witness: Cramer's rule on the example whose trailing block is the
identity. -/
theorem C11_Bd_inverse_Bi_witness :
    B_d rollingEval rollingBicycle * Bd_inverse_Bi cramer_solve rollingEval rollingBicycle
      = -(B_i rollingEval rollingBicycle) :=
  C11_Bd_inverse_Bi cramer_solve rollingEval rollingBicycle cramer_solve_exact
    (by rw [rolling_B_d, Matrix.det_one]; exact isUnit_one)

/-! ## The equations of motion assembler -/

/-- The returned vector is the output of `f_1` with its leading `n` entries
multiplied by `-1`. -/
theorem state_derivatives_eq (qr : Solver) (E : FullEvaluator) (b : Bicycle)
    (uninit : Vector 20) :
    state_derivatives qr E b uninit = scale_leading n (-1) (E.f_1 b.state_ uninit) := by
  rfl

/-! ### C12 -/

/-- C12: `state_derivatives` returns a vector of length `20 = n + o`; entry
`k < n` is the negation of entry `k` of the output of `f_1`, and every entry
`k ≥ n` is the value `f_1` left in the buffer.  The function is `const`: it is
a pure function of the object and returns no new state. -/
theorem C12_state_derivatives (qr : Solver) (E : FullEvaluator) (b : Bicycle)
    (uninit : Vector 20) :
    n + o = 20 ∧
    (∀ k : Fin 20, k.val < n →
      state_derivatives qr E b uninit k 0 = -(E.f_1 b.state_ uninit k 0)) ∧
    (∀ k : Fin 20, n ≤ k.val →
      state_derivatives qr E b uninit k 0 = E.f_1 b.state_ uninit k 0) := by
  refine ⟨rfl, ?_, ?_⟩
  · intro k hk
    rw [state_derivatives_eq]
    simp [scale_leading, hk]
  · intro k hk
    rw [state_derivatives_eq]
    simp [scale_leading, not_lt.mpr hk]

/-- C12, witness: entry 0 and entry 19 on the example model, starting from a
buffer filled with sevens. -/
theorem C12_state_derivatives_witness :
    state_derivatives cramer_solve rollingModel rollingBicycle (fun _ _ => 7) 0 0
      = -(rollingModel.f_1 rollingBicycle.state_ (fun _ _ => 7) 0 0) ∧
    state_derivatives cramer_solve rollingModel rollingBicycle (fun _ _ => 7) 19 0
      = rollingModel.f_1 rollingBicycle.state_ (fun _ _ => 7) 19 0 :=
  ⟨(C12_state_derivatives cramer_solve rollingModel rollingBicycle (fun _ _ => 7)).2.1 0
      (by decide),
    (C12_state_derivatives cramer_solve rollingModel rollingBicycle (fun _ _ => 7)).2.2 19
      (by decide)⟩

/-! ## The constraint force reconstructor -/

theorem constraint_force_columns_strictMono : StrictMono constraint_force_columns := by
  intro a c h
  revert a c
  decide

theorem active_force_columns_strictMono : StrictMono active_force_columns := by
  intro a c h
  revert a c
  decide

/-- The columns written into `gaf_dr_a_constrained` are the columns outside
`{4, 5, 6, 14, 15, 16, 20}` in ascending order. -/
theorem active_force_columns_eq : active_force_columns = spec_other_columns := by
  rw [spec_other_columns, ← Finset.orderEmbOfFin_unique (by decide)
    (by decide : ∀ x, active_force_columns x ∈ Finset.univ \ spec_force_set)
    active_force_columns_strictMono]

theorem gaf_dr_full_constrained_eq (qr : Solver) (E : FullEvaluator) (b : Bicycle) :
    gaf_dr_full_constrained qr E b = spec_G_r qr E b := by
  funext i c
  simp [gaf_dr_full_constrained, spec_G_r, gaf_dr_full, block, C, Matrix.mul_apply]

theorem gif_steady_constrained_eq (qr : Solver) (E : FullEvaluator) (b : Bicycle) :
    gif_steady_constrained qr E b = spec_g_r qr E b := by
  funext i c
  have hc : c = 0 := Subsingleton.elim _ _
  subst hc
  simp [gif_steady_constrained, spec_g_r, gif_steady, block, C, Matrix.mul_apply]

theorem gaf_dr_c_constrained_eq (qr : Solver) (E : FullEvaluator) (b : Bicycle) :
    gaf_dr_c_constrained qr E b = spec_A qr E b := by
  funext i j
  rw [gaf_dr_c_constrained, spec_A, gaf_dr_full_constrained_eq, constraint_force_columns]

theorem gaf_dr_a_constrained_eq (qr : Solver) (E : FullEvaluator) (b : Bicycle) :
    gaf_dr_a_constrained qr E b = spec_K qr E b := by
  funext i j
  rw [gaf_dr_a_constrained, spec_K, gaf_dr_full_constrained_eq, active_force_columns_eq]

theorem rhs_eq (qr : Solver) (E : FullEvaluator) (b : Bicycle) :
    rhs qr E b = spec_rhs qr E b := by
  rw [rhs, spec_rhs, gif_steady_constrained_eq, gaf_dr_a_constrained_eq]

theorem sq_norm_nonneg {k : ℕ} (v : Vector k) : 0 ≤ sq_norm v :=
  Finset.sum_nonneg (fun i _ => sq_nonneg (v i 0))

theorem sq_norm_eq_zero {k : ℕ} (v : Vector k) (h : sq_norm v = 0) : v = 0 := by
  funext i c
  have hc : c = 0 := Subsingleton.elim _ _
  subst hc
  have h1 := (Finset.sum_eq_zero_iff_of_nonneg (fun i _ => sq_nonneg (v i 0))).mp h i
    (Finset.mem_univ i)
  simpa using h1

/-! ### The example system of the force reconstructor -/

theorem leading_entries_solve_isLeastSquares (A : Matrix (Fin (o - m)) (Fin 7) ℚ)
    (rhs : Vector (o - m))
    (hA : ∀ (y : Vector 7) (i : Fin (o - m)),
      (A * y) i 0 = if h : i.val < 7 then y ⟨i.val, h⟩ 0 else 0) :
    IsLeastSquares A rhs (leading_entries_solve A rhs) := by
  intro y
  simp only [sq_norm, Matrix.sub_apply, hA]
  apply Finset.sum_le_sum
  intro x _
  by_cases hx : x.val < 7
  · simp only [hx, dite_true, leading_entries_solve, sub_self]
    positivity
  · simp [hx]

theorem cramer_solve_one (k : ℕ) (X : Matrix (Fin m) (Fin k) ℚ) : cramer_solve k 1 X = X := by
  simp [cramer_solve]

theorem force_gaf_dr_full_constrained (i : Fin (o - m)) (c : Fin s) :
    gaf_dr_full_constrained cramer_solve forceModel rollingBicycle i c
      = if h : i.val < 7 then (if c = constraint_force_columns ⟨i.val, h⟩ then 1 else 0)
        else 0 := by
  simp [gaf_dr_full_constrained, gaf_dr_full, block, C, Matrix.mul_apply, forceModel,
    rollingBicycle]
  apply Finset.sum_eq_zero
  intro x _
  rw [dif_neg]
  simp only [o, m]
  omega

theorem force_gif_steady_constrained (i : Fin (o - m)) :
    gif_steady_constrained cramer_solve forceModel rollingBicycle i 0 = (i.val : ℚ) + 1 := by
  have hi : i.val < 9 := i.isLt
  simp [gif_steady_constrained, gif_steady, block, C, Matrix.mul_apply, forceModel,
    rollingBicycle, hi]
  apply Finset.sum_eq_zero
  intro x _
  rw [if_neg]
  simp only [o, m]
  omega

theorem force_A_mul (y : Vector 7) (i : Fin (o - m)) :
    (gaf_dr_c_constrained cramer_solve forceModel rollingBicycle * y) i 0
      = if h : i.val < 7 then y ⟨i.val, h⟩ 0 else 0 := by
  simp only [Matrix.mul_apply, gaf_dr_c_constrained, force_gaf_dr_full_constrained]
  by_cases hi : i.val < 7
  · simp only [hi, dite_true]
    rw [Finset.sum_eq_single (⟨i.val, hi⟩ : Fin 7)]
    · simp
    · intro j _ hj
      have hne : constraint_force_columns j ≠ constraint_force_columns ⟨i.val, hi⟩ :=
        fun h => hj (constraint_force_columns_strictMono.injective h)
      simp [hne]
    · intro h
      exact absurd (Finset.mem_univ _) h
  · simp [hi]

theorem active_ne_constraint :
    ∀ (x : Fin (s - 7)) (j : Fin 7), active_force_columns x ≠ constraint_force_columns j := by
  decide

theorem force_rhs (i : Fin (o - m)) :
    rhs cramer_solve forceModel rollingBicycle i 0 = -((i.val : ℚ) + 1) := by
  simp only [rhs, Matrix.neg_apply, Matrix.add_apply, force_gif_steady_constrained,
    Matrix.mul_apply, gaf_dr_a_constrained, force_gaf_dr_full_constrained]
  have hsum : (∑ x : Fin (s - 7),
      (if h : i.val < 7 then
          if active_force_columns x = constraint_force_columns ⟨i.val, h⟩ then (1 : ℚ) else 0
        else 0)
        * forceModel.all_inputs_except_constraint_forces rollingBicycle.state_ x 0) = 0 := by
    apply Finset.sum_eq_zero
    intro x _
    by_cases hi : i.val < 7
    · simp [hi, active_ne_constraint]
    · simp [hi]
  rw [hsum, add_zero]

theorem force_isLeastSquares :
    IsLeastSquares (gaf_dr_c_constrained cramer_solve forceModel rollingBicycle)
      (rhs cramer_solve forceModel rollingBicycle)
      (leading_entries_solve (gaf_dr_c_constrained cramer_solve forceModel rollingBicycle)
        (rhs cramer_solve forceModel rollingBicycle)) :=
  leading_entries_solve_isLeastSquares _ _ force_A_mul

/-! ### C13 -/

/-- C13: provided the decomposition's `solve` returns a least-squares solution of
the system it is handed, `steady_constraint_forces` returns a 7-vector `x` with
`|A x - rhs| ≤ |A y - rhs|` for every 7-vector `y`, where `A`, `K` and `rhs` are
the matrices of the specification: `A` the columns `(4, 5, 6, 14, 15, 16, 20)`
and `K` the other 15 columns, ascending, of `G_r`, and
`rhs = -(g_r + K * all_inputs_except_constraint_forces())`.  When some `x0`
solves `A x0 = rhs` exactly, so does the returned `x`. -/
theorem C13_steady_constraint_forces (qr : Solver) (svd : SvdSolver) (E : FullEvaluator)
    (b : Bicycle)
    (hsvd : IsLeastSquares (gaf_dr_c_constrained qr E b) (rhs qr E b)
      (svd (gaf_dr_c_constrained qr E b) (rhs qr E b))) :
    IsLeastSquares (spec_A qr E b) (spec_rhs qr E b) (steady_constraint_forces qr svd E b) ∧
    (∀ x0 : Vector 7, spec_A qr E b * x0 = spec_rhs qr E b →
      spec_A qr E b * steady_constraint_forces qr svd E b = spec_rhs qr E b) := by
  have hls : IsLeastSquares (spec_A qr E b) (spec_rhs qr E b)
      (steady_constraint_forces qr svd E b) := by
    rw [← gaf_dr_c_constrained_eq, ← rhs_eq]
    exact hsvd
  refine ⟨hls, ?_⟩
  intro x0 hx0
  have h0 : sq_norm (spec_A qr E b * x0 - spec_rhs qr E b) = 0 := by
    rw [hx0, sub_self]
    simp [sq_norm]
  have h1 : sq_norm (spec_A qr E b * steady_constraint_forces qr svd E b - spec_rhs qr E b)
      = 0 :=
    le_antisymm (h0 ▸ hls x0) (sq_norm_nonneg _)
  exact sub_eq_zero.mp (sq_norm_eq_zero _ h1)

/-- C13, witness: a system whose matrix is the identity on top of two zero rows,
solved by taking the leading seven entries of the right-hand side. -/
theorem C13_steady_constraint_forces_witness :
    IsLeastSquares (spec_A cramer_solve forceModel rollingBicycle)
      (spec_rhs cramer_solve forceModel rollingBicycle)
      (steady_constraint_forces cramer_solve leading_entries_solve forceModel rollingBicycle) :=
  (C13_steady_constraint_forces cramer_solve leading_entries_solve forceModel rollingBicycle
    force_isLeastSquares).1

/-! ## The constraint Jacobian derivative reconstructors -/

theorem foldl_range_add {R K : ℕ} (g : ℕ → Matrix (Fin R) (Fin K) ℚ) (k : ℕ)
    (M0 : Matrix (Fin R) (Fin K) ℚ) :
    (List.range k).foldl (fun acc i => acc + g i) M0 = M0 + ∑ i in Finset.range k, g i := by
  induction k with
  | zero => simp
  | succ k ih =>
    rw [List.range_succ, List.foldl_append, ih, Finset.sum_range_succ]
    simp [add_assoc]

theorem block_add_zero {R K r c : ℕ} (M : Matrix (Fin R) (Fin K) ℚ) (i j : ℕ) :
    block_add M i j (0 : Matrix (Fin r) (Fin c) ℚ) = M := by
  funext a d
  simp [block_add]

theorem block_add_block_add {R K r c : ℕ} (M : Matrix (Fin R) (Fin K) ℚ) (i j : ℕ)
    (A B : Matrix (Fin r) (Fin c) ℚ) :
    block_add (block_add M i j A) i j B = block_add M i j (A + B) := by
  funext a d
  by_cases h : (i ≤ a.val ∧ a.val < i + r) ∧ (j ≤ d.val ∧ d.val < j + c)
  · simp [block_add, h, add_assoc]
  · simp [block_add, h]

theorem foldl_range_block_add {R K r c : ℕ} (g : ℕ → Matrix (Fin r) (Fin c) ℚ) (i j k : ℕ)
    (M0 : Matrix (Fin R) (Fin K) ℚ) :
    (List.range k).foldl (fun mat x => block_add mat i j (g x)) M0
      = block_add M0 i j (∑ x in Finset.range k, g x) := by
  induction k with
  | zero => simp [block_add_zero]
  | succ k ih =>
    rw [List.range_succ, List.foldl_append, ih, Finset.sum_range_succ]
    simp [block_add_block_add]

/-- The entries that `f_v_dudt` computes: with the row stride `m * n_min` of its
map, entry `(r, c)` reads `raw[k + r * (m * n_min) + c * n_min]`. -/
theorem f_v_dudt_apply (E : FullEvaluator) (b : Bicycle) (r : Fin m) (c : Fin o) :
    f_v_dudt E b r c
      = ∑ k : Fin 3, data (E.f_v_dudq b.state_) (k.val + (r.val * (m * n_min) + c.val * n_min))
          * data b.state_ (n + k.val + 1) := by
  rw [f_v_dudt]
  simp only [foldl_range_add, zero_add, Finset.sum_apply, Matrix.sum_apply, scale, Map, advance]
  rw [Finset.sum_range]

/-- The entries that `f_v_dq` computes. -/
theorem f_v_dq_apply (E : FullEvaluator) (b : Bicycle) (r : Fin m) (c : Fin n) :
    f_v_dq E b r c
      = if 1 ≤ c.val ∧ c.val < 4 then
          ∑ j : Fin o, data (E.f_v_dudq b.state_)
              (n_min * j.val + (r.val * (n_min * o) + (c.val - 1) * 1))
            * data b.state_ (n + j.val)
        else 0 := by
  rw [f_v_dq]
  simp only [foldl_range_block_add]
  by_cases h : 1 ≤ c.val ∧ c.val < 4
  · have hr := r.isLt
    have h' : (0 ≤ r.val ∧ r.val < 0 + 3) ∧ (1 ≤ c.val ∧ c.val < 1 + 3) :=
      ⟨⟨Nat.zero_le _, by simp only [m] at hr; omega⟩, h.1, by omega⟩
    simp only [block_add, h', h, dite_true, if_true, Matrix.zero_apply, zero_add,
      Matrix.sum_apply, scale, Map, advance, and_self]
    rw [Finset.sum_range]
    rfl
  · have h' : ¬ ((0 ≤ r.val ∧ r.val < 0 + 3) ∧ (1 ≤ c.val ∧ c.val < 1 + 3)) := by
      intro hh
      exact h ⟨hh.2.1, by omega⟩
    simp only [block_add, h', h, dite_false, if_false, Matrix.zero_apply]


theorem data_speed (st : State) (j : Fin o) : data st (n + j.val) = speeds st j 0 := by
  have hj : n + j.val < 20 := by have := j.isLt; simp only [n, o] at this ⊢; omega
  simp [data, speeds, block, hj]

/-! ### C14 -/

/-- C14, the code at a failing input: the raw tensor has the single non-zero
entry `T(1, 0, 0) = raw[36] = 1` and the lean rate is `u[1] = 1`.  The
contraction of the claim has entry `(1, 0)` equal to `T(1, 0, 0) * u[1] = 1`;
`f_v_dudt` returns `0` there, and returns the `1` in entries `(1, 9)` and
`(2, 6)`, whose offsets `9 r + 3 c` under the row stride `m * n_min = 9` both
equal `36`. -/
theorem C14_f_v_dudt_row_stride :
    spec_f_v_dudt (data (tensorModel.f_v_dudq leanRateBicycle.state_)) leanRateBicycle.state_ 1 0
      = 1 ∧
    f_v_dudt tensorModel leanRateBicycle 1 0 = 0 ∧
    f_v_dudt tensorModel leanRateBicycle 1 9 = 1 ∧
    f_v_dudt tensorModel leanRateBicycle 2 6 = 1 := by
  refine ⟨?_, ?_, ?_, ?_⟩
  · simp [spec_f_v_dudt, T, Fin.sum_univ_succ, data, tensorModel, leanRateBicycle, n, o, m, n_min]
  · rw [f_v_dudt_apply]
    simp [Fin.sum_univ_succ, data, tensorModel, leanRateBicycle, n, o, m, n_min]
  · have h9 : ((9 : Fin 12) : ℕ) = 9 := rfl
    rw [f_v_dudt_apply]
    simp [Fin.sum_univ_succ, data, tensorModel, leanRateBicycle, n, o, m, n_min, h9]
  · have h6 : ((6 : Fin 12) : ℕ) = 6 := rfl
    rw [f_v_dudt_apply]
    simp [Fin.sum_univ_succ, data, tensorModel, leanRateBicycle, n, o, m, n_min, h6]

/-! ### C15 -/

/-- C15: the loop of `f_v_dq` gives the same matrix as the per-column formulation
of its comment; entry `(r, 1 + k)` is
`sum_{j < o} raw[(r * o + j) * n_min + k] * u[j]` for `r, k` in `0..2`, and the
columns `0` and `4..n-1` are zero. -/
theorem C15_f_v_dq (E : FullEvaluator) (b : Bicycle) :
    f_v_dq E b = comment_f_v_dq (data (E.f_v_dudq b.state_)) b.state_ ∧
    (∀ (r : Fin m) (k : Fin n_min),
      f_v_dq E b r ⟨1 + k.val, by have := k.isLt; simp only [n, n_min] at this ⊢; omega⟩
        = ∑ j : Fin o, T (data (E.f_v_dudq b.state_)) r.val j.val k.val
            * data b.state_ (n + j.val)) ∧
    (∀ r : Fin m, f_v_dq E b r 0 = 0) ∧
    (∀ (r : Fin m) (c : Fin n), 4 ≤ c.val → f_v_dq E b r c = 0) := by
  refine ⟨?_, ?_, ?_, ?_⟩
  · funext r c
    rw [f_v_dq_apply, comment_f_v_dq]
    by_cases h : 1 ≤ c.val ∧ c.val < 4
    · have h' : 1 ≤ c.val ∧ c.val < n_min + 1 := h
      rw [if_pos h, if_pos h', Matrix.mul_apply]
      apply Finset.sum_congr rfl
      intro j _
      rw [data_speed, Map, advance]
      congr 2
      simp only [n_min, o, m]
      omega
    · have h' : ¬ (1 ≤ c.val ∧ c.val < n_min + 1) := h
      rw [if_neg h, if_neg h']
  · intro r k
    have hk := k.isLt
    rw [f_v_dq_apply, if_pos ⟨by simp, by simp only [n_min] at hk; simp; omega⟩]
    apply Finset.sum_congr rfl
    intro j _
    rw [T]
    congr 2
    simp only [n_min, o]
    simp
    omega
  · intro r
    rw [f_v_dq_apply, if_neg (by simp)]
  · intro r c hc
    rw [f_v_dq_apply, if_neg (by omega)]

/-! ## The ranking of the dependent speeds -/

theorem pair_lt_iff_lex (x y : ℚ × ℕ) : pair_lt x y ↔ toLex x < toLex y := by
  rw [Prod.Lex.lt_iff, pair_lt]
  constructor
  · rintro (h | ⟨h1, h2⟩)
    · exact Or.inl h
    · rcases lt_or_eq_of_le (not_lt.mp h1) with h | h
      · exact Or.inl h
      · exact Or.inr ⟨h, h2⟩
  · rintro (h | ⟨h1, h2⟩)
    · exact Or.inl h
    · exact Or.inr ⟨by rw [h1]; exact lt_irrefl _, h2⟩

theorem foldl_best_max (xs : List (ℚ × ℕ)) : ∀ x : ℚ × ℕ, ∀ y ∈ x :: xs,
    ¬ pair_lt (xs.foldl (fun best y => if pair_lt best y then y else best) x) y := by
  induction xs with
  | nil =>
    intro x y hy
    rw [List.mem_singleton.mp hy, List.foldl_nil, pair_lt_iff_lex]
    exact lt_irrefl _
  | cons z zs ih =>
    intro x y hy
    rw [List.foldl_cons]
    have hle : ∀ w, w = x ∨ w = z →
        ¬ pair_lt (zs.foldl (fun best y => if pair_lt best y then y else best)
          (if pair_lt x z then z else x)) w := by
      intro w hw
      have h1 := ih (if pair_lt x z then z else x) _ (List.mem_cons_self _ _)
      rw [pair_lt_iff_lex, not_lt] at h1 ⊢
      refine le_trans ?_ h1
      by_cases hxz : pair_lt x z
      · rw [if_pos hxz]
        rcases hw with rfl | rfl
        · exact le_of_lt ((pair_lt_iff_lex _ _).mp hxz)
        · exact le_rfl
      · rw [if_neg hxz]
        rcases hw with rfl | rfl
        · exact le_rfl
        · exact not_lt.mp (fun h => hxz ((pair_lt_iff_lex _ _).mpr h))
    rcases List.mem_cons.mp hy with h | h
    · exact hle y (Or.inl h)
    · rcases List.mem_cons.mp h with h | h
      · exact hle y (Or.inr h)
      · exact ih _ y (List.mem_cons_of_mem _ h)

/-- The top of the queue is not below any element of the queue. -/
theorem pq_top_max (q : List (ℚ × ℕ)) (y : ℚ × ℕ) (hy : y ∈ q) : ¬ pair_lt (pq_top q) y := by
  cases q with
  | nil => exact absurd hy (List.not_mem_nil _)
  | cons x xs => exact foldl_best_max xs x y hy

theorem subset_pop_indices (k : ℕ) : ∀ (q : List (ℚ × ℕ)) (indices : Finset ℕ),
    indices ⊆ pop_indices k q indices := by
  induction k with
  | zero => intro q indices; exact Finset.Subset.refl _
  | succ k ih =>
    intro q indices
    rw [pop_indices]
    exact (Finset.subset_insert _ _).trans (ih _ _)

/-- Popping `k` times selects the `k` largest elements: every element of the
queue whose index is selected is above every element whose index is not. -/
theorem pop_indices_top (k : ℕ) : ∀ (q : List (ℚ × ℕ)) (indices : Finset ℕ),
    (q.map Prod.snd).Nodup → (∀ x ∈ q, x.2 ∉ indices) →
    ∀ x ∈ q, ∀ y ∈ q, x.2 ∈ pop_indices k q indices → y.2 ∉ pop_indices k q indices →
      pair_lt y x := by
  induction k with
  | zero =>
    intro q indices _ hfresh x hx y _ hxs _
    exact absurd (by simpa [pop_indices] using hxs) (hfresh x hx)
  | succ k ih =>
    intro q indices hnodup hfresh x hx y hy hxs hys
    have hne : q ≠ [] := List.ne_nil_of_mem hx
    have htop : pq_top q ∈ q := pq_top_mem q hne
    have hq : q.Nodup := List.Nodup.of_map _ hnodup
    rw [pop_indices] at hxs hys
    have hyt : y ≠ pq_top q := by
      intro h
      apply hys
      apply subset_pop_indices
      rw [h]
      exact Finset.mem_insert_self _ _
    have hy' : y ∈ pq_pop q := (List.Nodup.mem_erase_iff hq).mpr ⟨hyt, hy⟩
    by_cases hxt : x = pq_top q
    · rw [hxt, pair_lt_iff_lex]
      have h1 := pq_top_max q y hy
      rw [pair_lt_iff_lex, not_lt] at h1
      exact lt_of_le_of_ne h1 (fun h => hyt (toLex.injective h))
    · have hx' : x ∈ pq_pop q := (List.Nodup.mem_erase_iff hq).mpr ⟨hxt, hx⟩
      have hnodup' : ((pq_pop q).map Prod.snd).Nodup :=
        hnodup.sublist ((List.erase_sublist _ _).map _)
      have hfresh' : ∀ z ∈ pq_pop q, z.2 ∉ insert (pq_top q).2 indices := by
        intro z hz hmem
        have hzq : z ∈ q := List.mem_of_mem_erase hz
        rcases Finset.mem_insert.mp hmem with h1 | h1
        · have hzt : z = pq_top q := List.inj_on_of_nodup_map hnodup hzq htop h1
          rw [pq_pop, hzt] at hz
          exact ((List.Nodup.mem_erase_iff hq).mp hz).1 rfl
        · exact hfresh z hzq h1
      exact ih (pq_pop q) (insert (pq_top q).2 indices) hnodup' hfresh' x hx' y hy' hxs hys

theorem mem_push_scores (d : Fin 6 → ℚ) (i : Fin 6) : (d i, i.val) ∈ push_scores d := by
  rw [push_scores_eq]
  fin_cases i <;> simp

theorem select_speeds_top (d : Fin 6 → ℚ) (i j : Fin 6)
    (hi : i.val ∈ select_speeds d) (hj : j.val ∉ select_speeds d) :
    d j ≤ d i ∧ (d i = d j → j < i) := by
  have h := pop_indices_top m (push_scores d) ∅ (by rw [push_scores_eq]; simp) (by simp)
    (d i, i.val) (mem_push_scores d i) (d j, j.val) (mem_push_scores d j) hi hj
  rw [pair_lt] at h
  rcases h with h | ⟨h1, h2⟩
  · exact ⟨le_of_lt h, fun heq => absurd h (by rw [heq]; exact lt_irrefl _)⟩
  · exact ⟨not_lt.mp h1, fun _ => h2⟩

theorem tie_scores : speed_scores tieV rollingEval rollingBicycle = ![3, 3, 3, 3, 0, 5] := by
  funext i
  fin_cases i <;> simp only [speed_scores, tieV, Fin.sum_univ_three] <;> norm_num

theorem tie_select : select_speeds ![3, 3, 3, 3, 0, 5] = {2, 3, 5} := by
  decide

theorem tie_best : best_dependent_speeds tieV rollingEval rollingBicycle = {2, 3, 5} := by
  show select_speeds (speed_scores tieV rollingEval rollingBicycle) = _
  rw [tie_scores, tie_select]

/-! ### C16 -/

/-- C16: with `score(i)` the squared norm of row `i` of the matrix `V`,
`best_dependent_speeds` returns the candidates with the largest scores: a
returned `i` and a candidate `j` that is not returned satisfy
`score(j) ≤ score(i)`, and `j < i` when the scores are equal.  The result is the
selection applied to the six scores, so two configurations with the same
scores give the same set. -/
theorem C16_best_dependent_speeds_ranking
    (matrixV : Matrix (Fin m) (Fin 6) ℚ → Matrix (Fin 6) (Fin m) ℚ) (E : Evaluator)
    (b : Bicycle) :
    (∀ i j : Fin 6, i.val ∈ best_dependent_speeds matrixV E b →
      j.val ∉ best_dependent_speeds matrixV E b →
      speed_scores matrixV E b j ≤ speed_scores matrixV E b i ∧
      (speed_scores matrixV E b i = speed_scores matrixV E b j → j < i)) ∧
    best_dependent_speeds matrixV E b = select_speeds (speed_scores matrixV E b) ∧
    (∀ (matrixV' : Matrix (Fin m) (Fin 6) ℚ → Matrix (Fin 6) (Fin m) ℚ) (E' : Evaluator)
      (b' : Bicycle), speed_scores matrixV' E' b' = speed_scores matrixV E b →
      best_dependent_speeds matrixV' E' b' = best_dependent_speeds matrixV E b) := by
  have hsel : ∀ (V : Matrix (Fin m) (Fin 6) ℚ → Matrix (Fin 6) (Fin m) ℚ) (E₁ : Evaluator)
      (b₁ : Bicycle), best_dependent_speeds V E₁ b₁ = select_speeds (speed_scores V E₁ b₁) :=
    fun _ _ _ => rfl
  refine ⟨?_, hsel _ _ _, ?_⟩
  · intro i j hi hj
    rw [hsel] at hi hj
    exact select_speeds_top _ i j hi hj
  · intro V E₁ b₁ h
    rw [hsel, hsel, h]

/-- C16, witness: with the scores `3, 3, 3, 3, 0, 5` the candidates `2`, `3` and
`5` are returned; candidate `1` ties with the returned `2` and has the smaller
index. -/
theorem C16_best_dependent_speeds_ranking_witness :
    speed_scores tieV rollingEval rollingBicycle 1 ≤ speed_scores tieV rollingEval rollingBicycle 2 ∧
    (speed_scores tieV rollingEval rollingBicycle 2
        = speed_scores tieV rollingEval rollingBicycle 1 → (1 : Fin 6) < 2) :=
  (C16_best_dependent_speeds_ranking tieV rollingEval rollingBicycle).1 2 1
    (by rw [tie_best]; decide) (by rw [tie_best]; decide)


/-! ## The velocity solver and the reduction matrix -/

/-! ### C17 -/

/-- C17: if `B_d` is invertible and the solve is exact, the `u_d` that
`solve_velocity_constraints_and_set_state` computes equals
`Bd_inverse_Bi() * u_i`, that is `-solve(B_i * u_i) = solve(-B_i) * u_i`; with
`m` dependent speeds these are the values written back, in ascending order of
the dependent indices. -/
theorem C17_u_d_eq_reduction (qr : Solver) (E : Evaluator) (b : Bicycle)
    (hexact : ExactSolve qr) (hinv : IsUnit (B_d E b).det) :
    u_d qr E b = Bd_inverse_Bi qr E b * u_i b ∧
    (∀ hcard : b.dependent_speeds_.card = m,
      ∃ s', solve_velocity_constraints_and_set_state qr E b
          = some ({ b with state_ := s' }, velocity_residual qr E b) ∧
        ∀ k : Fin m, s' (uIdx (b.dependent_speeds_.orderEmbOfFin hcard k)) 0
          = (Bd_inverse_Bi qr E b * u_i b) k 0) := by
  have hud : u_d qr E b = Bd_inverse_Bi qr E b * u_i b := by
    apply mul_left_cancel_of_isUnit_det (B_d E b) _ _ hinv
    rw [u_d, Matrix.mul_neg, hexact 1 (B_d E b) _ hinv, ← Matrix.mul_assoc, Bd_inverse_Bi,
      hexact (o - m) (B_d E b) _ hinv, Matrix.neg_mul]
  refine ⟨hud, ?_⟩
  intro hcard
  obtain ⟨s', hs', hval, _⟩ := solve_velocity_spec qr E b hcard
  exact ⟨s', hs', fun k => by rw [hval k, hud]⟩

/-- C17, witness: Cramer's rule on the example whose trailing block is the
identity. -/
theorem C17_u_d_eq_reduction_witness :
    u_d cramer_solve rollingEval rollingBicycle
      = Bd_inverse_Bi cramer_solve rollingEval rollingBicycle * u_i rollingBicycle :=
  (C17_u_d_eq_reduction cramer_solve rollingEval rollingBicycle cramer_solve_exact
    (by rw [rolling_B_d, Matrix.det_one]; exact isUnit_one)).1


theorem speeds_apply (st : State) (j : Fin o) : speeds st j 0 = st (uIdx j) 0 := by
  simp only [speeds, block, uIdx]
  congr 1
  exact Fin.ext (Nat.add_comm _ _)

/-- The sum over all columns splits into the leading and the trailing ones. -/
theorem sum_leading_trailing (g : Fin o → ℚ) :
    ∑ c, g c = ∑ j : Fin (o - m), g (leading j) + ∑ k : Fin m, g (trailing k) :=
  @Fin.sum_univ_add ℚ _ 9 3 g

/-- For a permutation matrix `P_u_` with `1` in entry `(σ c, c)`, column `c` of
`B * P_u_` is column `σ c` of `B`. -/
theorem permuted_B_apply (E : Evaluator) (b : Bicycle) (σ : Equiv.Perm (Fin o))
    (hP : ∀ i j, b.P_u_ i j = if i = σ j then 1 else 0) (r : Fin m) (c : Fin o) :
    permuted_B E b r c = E.f_v_du b.state_ r (σ c) := by
  simp [permuted_B, Matrix.mul_apply, hP]

theorem leading_speed (b : Bicycle) (σ : Equiv.Perm (Fin o))
    (hP : ∀ i j, b.P_u_ i j = if i = σ j then 1 else 0) (j : Fin (o - m)) :
    u_i b j 0 = speeds b.state_ (σ (leading j)) 0 := by
  simp only [u_i, block, Matrix.mul_apply, Matrix.transpose_apply, hP]
  have hj : (⟨0 + j.val, by have := j.isLt; omega⟩ : Fin o) = leading j :=
    Fin.ext (Nat.zero_add _)
  rw [hj]
  simp


/-! ### C18 -/

/-- C18: suppose there are `m` dependent speeds, `f_v_du` depends on the
coordinates only, and `P_u_` is the permutation matrix of `σ` (column `c` of
`B * P_u_` is column `σ c` of `B`) whose trailing `m` columns select the
dependent speeds in ascending order.  Then the call succeeds and the speeds `u'`
it stores satisfy `B * u' =` the returned residual, with `B` evaluated at the
updated state; if moreover the solve is exact and `B_d` is invertible,
`B * u' = 0`. -/
theorem C18_velocity_constraints_hold (qr : Solver) (E : Evaluator) (b : Bicycle)
    (hcard : b.dependent_speeds_.card = m)
    (hB : ∀ s₁ s₂ : State, (∀ i : Fin n, s₁ (qIdx i) 0 = s₂ (qIdx i) 0) →
      E.f_v_du s₁ = E.f_v_du s₂)
    (σ : Equiv.Perm (Fin o))
    (hP : ∀ i j, b.P_u_ i j = if i = σ j then 1 else 0)
    (hσ : ∀ k : Fin m, σ (trailing k) = b.dependent_speeds_.orderEmbOfFin hcard k) :
    ∃ s', solve_velocity_constraints_and_set_state qr E b
        = some ({ b with state_ := s' }, velocity_residual qr E b) ∧
      E.f_v_du s' * speeds s' = velocity_residual qr E b ∧
      (ExactSolve qr → IsUnit (B_d E b).det → E.f_v_du s' * speeds s' = 0) := by
  obtain ⟨s', hs', hval, hframe⟩ := solve_velocity_spec qr E b hcard
  have hBs : E.f_v_du s' = E.f_v_du b.state_ :=
    hB s' b.state_ (fun i => hframe (qIdx i) (fun d _ => uIdx_ne_qIdx d i))
  have hres : E.f_v_du s' * speeds s' = velocity_residual qr E b := by
    funext r c
    have hc : c = 0 := Subsingleton.elim _ _
    subst hc
    rw [hBs, velocity_residual, Matrix.add_apply, Matrix.mul_apply, Matrix.mul_apply,
      Matrix.mul_apply, ← Equiv.sum_comp σ, sum_leading_trailing, add_comm]
    congr 1
    · apply Finset.sum_congr rfl
      intro k _
      have hBd : B_d E b r k = E.f_v_du b.state_ r (σ (trailing k)) := by
        rw [← permuted_B_apply E b σ hP]
        simp only [B_d, block, trailing]
        congr 1
        exact Fin.ext (Nat.zero_add _)
      rw [hBd, speeds_apply, hσ k, hval k]
    · apply Finset.sum_congr rfl
      intro j _
      have hBi : B_i E b r j = E.f_v_du b.state_ r (σ (leading j)) := by
        rw [← permuted_B_apply E b σ hP]
        simp only [B_i, block, leading]
        congr 1
        · exact Fin.ext (Nat.zero_add _)
        · exact Fin.ext (Nat.zero_add _)
      have hnot : ∀ d ∈ b.dependent_speeds_, uIdx (σ (leading j)) ≠ uIdx d := by
        intro d hd heq
        have hd' : d ∈ Set.range (b.dependent_speeds_.orderEmbOfFin hcard) := by
          rw [Finset.range_orderEmbOfFin]; exact hd
        obtain ⟨k, hk⟩ := hd'
        have h1 : σ (leading j) = σ (trailing k) := by
          rw [hσ k, hk]; exact uIdx_injective heq
        have h2 : (leading j).val = (trailing k).val := congrArg Fin.val (σ.injective h1)
        have hj := j.isLt
        simp only [leading, trailing, o, m] at h2 hj
        omega
      rw [hBi, leading_speed b σ hP, speeds_apply, speeds_apply, hframe _ hnot]
  refine ⟨s', hs', hres, ?_⟩
  intro hexact hinv
  rw [hres]
  exact velocity_residual_eq_zero qr E b hexact hinv


theorem rolling_trailing (k : Fin m) :
    (1 : Equiv.Perm (Fin o)) (trailing k)
      = rollingBicycle.dependent_speeds_.orderEmbOfFin rolling_card k := by
  have hmono : StrictMono trailing := by
    intro a c h
    exact Fin.mk_lt_mk.mpr (Nat.add_lt_add_left h _)
  have hmem : ∀ x, trailing x ∈ rollingBicycle.dependent_speeds_ := by
    decide
  rw [← Finset.orderEmbOfFin_unique rolling_card hmem hmono]
  rfl

/-- C18, witness: the example, whose `P_u_` is the identity permutation and whose
dependent speeds are the last three. -/
theorem C18_velocity_constraints_hold_witness :
    ∃ s', solve_velocity_constraints_and_set_state cramer_solve rollingEval rollingBicycle
        = some ({ rollingBicycle with state_ := s' },
            velocity_residual cramer_solve rollingEval rollingBicycle) ∧
      rollingEval.f_v_du s' * speeds s' = 0 := by
  obtain ⟨s', hs', _, hzero⟩ := C18_velocity_constraints_hold cramer_solve rollingEval
    rollingBicycle rolling_card (fun _ _ _ => rfl) 1
    (fun i j => by simp [rollingBicycle, Matrix.one_apply]) rolling_trailing
  exact ⟨s', hs', hzero cramer_solve_exact
    (by rw [rolling_B_d, Matrix.det_one]; exact isUnit_one)⟩

/-! ### C19 -/

/-- C19: the column split of `steady_constraint_forces` is a partition of the
`s = 22` input channels: the 7 constraint force columns and the 15 known input
columns are each strictly ascending, they are disjoint, and every column
`0..21` is in one of the two lists; column `j` of each sub-matrix is the listed
column of the reduced matrix. -/
theorem C19_column_partition :
    s = 22 ∧
    constraint_force_columns = ![4, 5, 6, 14, 15, 16, 20] ∧
    active_force_columns = ![0, 1, 2, 3, 7, 8, 9, 10, 11, 12, 13, 17, 18, 19, 21] ∧
    StrictMono constraint_force_columns ∧
    StrictMono active_force_columns ∧
    (∀ (i : Fin 7) (j : Fin (s - 7)), constraint_force_columns i ≠ active_force_columns j) ∧
    (∀ c : Fin s, (∃ i, constraint_force_columns i = c) ∨ (∃ j, active_force_columns j = c)) ∧
    (∀ (qr : Solver) (E : FullEvaluator) (b : Bicycle) (r : Fin (o - m)),
      (∀ j, gaf_dr_c_constrained qr E b r j
        = gaf_dr_full_constrained qr E b r (constraint_force_columns j)) ∧
      (∀ j, gaf_dr_a_constrained qr E b r j
        = gaf_dr_full_constrained qr E b r (active_force_columns j))) := by
  refine ⟨rfl, rfl, rfl, constraint_force_columns_strictMono, active_force_columns_strictMono,
    ?_, ?_, ?_⟩
  · intro i j h
    exact active_ne_constraint j i h.symm
  · decide
  · intro qr E b r
    exact ⟨fun _ => rfl, fun _ => rfl⟩

/-! ### C20 -/

/-- C20: the vector returned by `state_derivatives` is determined by the output of
`f_1` alone: two calls whose `f_1` leaves the same buffer return the same
vector, whatever the mass matrices, the velocity constraint matrices, the
permutations `P_u_` and the solves are; the assembled `o x o` matrix enters no
entry of the result. -/
theorem C20_state_derivatives_depends_on_f_1 (qr₁ qr₂ : Solver) (E₁ E₂ : FullEvaluator)
    (b₁ b₂ : Bicycle) (uninit₁ uninit₂ : Vector 20)
    (h : E₁.f_1 b₁.state_ uninit₁ = E₂.f_1 b₂.state_ uninit₂) :
    state_derivatives qr₁ E₁ b₁ uninit₁ = state_derivatives qr₂ E₂ b₂ uninit₂ := by
  rw [state_derivatives_eq, state_derivatives_eq, h]

/-- C20, witness: two models with the same kinematic equations, different mass
matrices and velocity constraints, on bicycles with different `P_u_`. -/
theorem C20_state_derivatives_depends_on_f_1_witness :
    state_derivatives cramer_solve rollingModel rollingBicycle 0
      = state_derivatives cramer_solve freeModel { rollingBicycle with P_u_ := 0 } 0 :=
  C20_state_derivatives_depends_on_f_1 cramer_solve cramer_solve rollingModel freeModel
    rollingBicycle { rollingBicycle with P_u_ := 0 } 0 0 rfl

end bicycle
